import Mathlib

/-!
Verification of the decrossing / layering core of the d3-dag fork.

The development shallowly embeds two source files:

* `src/sugiyama/decross/opt.ts` — the `opt` decrossing operator: a size
  guard, construction of an integer linear program (pair variables,
  transitivity constraints, crossing slack variables), a call to the
  external solver `javascript-lp-solver`, and an in-place re-sort of each
  layer from the solved variable values.
* the Coffman-Graham layering operator (`coffmanGraham`): per-node layer
  assignment driven by a priority queue over "readiness" lists.

Nodes are modelled as natural numbers.  A graph is an association list from
a node to its ordered list of children, mirroring the ordered
`node.ichildren()` iterable.  The external solver is modelled as a
parameter: an assignment of solved values to pair variables, constrained in
the theorems by feasibility / optimality of the constructed model.  The
external priority queue (`fastpriorityqueue`) is modelled by quantifying
over every possible sequence of dequeue choices, which covers every
comparator-driven tie-break the real heap could make.
-/

namespace D3Dag

set_option maxRecDepth 200000

/-- Graph: association list node ↦ ordered children list (mirrors the
ordered `ichildren()` iterable; list order is insertion order). -/
def Graph : Type := List (Nat × List Nat)

/-- Children of a node; a node absent from the adjacency list has none. -/
def childrenOf (g : Graph) (n : Nat) : List Nat :=
  (List.lookup n g).getD []

/-- Insertion into a list sorted by a boolean "strictly before" comparator,
modelling `Array.prototype.sort` with a consistent comparator: the element
is placed before the first element it compares strictly before. -/
def insertCmp (lt : α → α → Bool) (x : α) : List α → List α
  | [] => [x]
  | y :: ys => if lt x y then x :: y :: ys else y :: insertCmp lt x ys

/-- Comparator sort (insertion sort).  All comparators used by the source
are total (no two distinct elements compare equal), so the sorted result is
the unique order determined by the comparator, which is what
`Array.prototype.sort` produces. -/
def sortCmp (lt : α → α → Bool) : List α → List α
  | [] => []
  | x :: xs => insertCmp lt x (sortCmp lt xs)

/-- The id string `(i j)` given to the node at position `j` of layer `i`
(variable naming in `optCall`). -/
def idStr (p : Nat × Nat) : String :=
  "(" ++ toString p.1 ++ " " ++ toString p.2 ++ ")"

/-- Code-unit lexicographic "strictly less" on character lists. -/
def codeLt : List Char → List Char → Bool
  | [], [] => false
  | [], _ :: _ => true
  | _ :: _, [] => false
  | c :: cs, d :: ds =>
    if c.toNat < d.toNat then true
    else if d.toNat < c.toNat then false
    else codeLt cs ds

/-- String comparison as an integer sign, modelling
`String.prototype.localeCompare` on these ASCII id strings (code-unit
lexicographic order, result normalised to -1/0/1 as V8 returns; the
default `Array.prototype.sort` used inside `key` compares the same
way). -/
def strCmp (s1 s2 : String) : Int :=
  if codeLt s1.data s2.data then -1
  else if codeLt s2.data s1.data then 1
  else 0

/-- The `ids` map of `optCall`: every node of the layering is keyed to its
(layer index, position) at call time. -/
def idsOf (layers : List (List Nat)) : List (Nat × (Nat × Nat)) :=
  (layers.enum.map (fun il =>
    il.2.enum.map (fun jn => (jn.2, (il.1, jn.1))))).flatten

/-- Lookup in the ids map (the source asserts presence with `def`; the
default is never reached on layerings that cover their nodes). -/
def idOf (ids : List (Nat × (Nat × Nat))) (n : Nat) : Nat × Nat :=
  (List.lookup n ids).getD (0, 0)

/-- The `comp` closure of `optCall`: compare two nodes by their id
strings. -/
def compI (ids : List (Nat × (Nat × Nat))) (n1 n2 : Nat) : Int :=
  strCmp (idStr (idOf ids n1)) (idStr (idOf ids n2))

/-- Canonical ("id order") sort of one layer — the `layer.sort(comp)`
performed by `perms` before variables are created. -/
def canonLayer (ids : List (Nat × (Nat × Nat))) (l : List Nat) : List Nat :=
  sortCmp (fun a b => decide (compI ids a b < 0)) l

/-- The normalised pair key of two nodes: `key(n1, n2)` joins the two id
strings after sorting them, so the variable identity is the id-ordered
pair. -/
def nkey (ids : List (Nat × (Nat × Nat))) (c1 c2 : Nat) : Nat × Nat :=
  if compI ids c1 c2 ≤ 0 then (c1, c2) else (c2, c1)

/-- All ordered pairs of a layer in creation order — the double loop of
`perms` that creates one boolean variable per pair. -/
def layerPairs (l : List Nat) : List (Nat × Nat) :=
  (l.enum.map (fun i_n => (l.drop (i_n.1 + 1)).map (fun m => (i_n.2, m)))).flatten

/-- All ordered triples of a layer in creation order — the triple loop of
`perms` that creates the two transitivity constraints. -/
def layerTriples (l : List Nat) : List (Nat × Nat × Nat) :=
  ((l.enum.map (fun in1 =>
    ((l.drop (in1.1 + 1)).enum.map (fun jn2 =>
      (l.drop (in1.1 + jn2.1 + 2)).map
        (fun n3 => (in1.2, jn2.2, n3)))).flatten))).flatten

/-- One crossing-slack creation event of `cross`: the parent pair variable,
the (normalised) child pair variable, and the sign/flip coefficients
written into the two slack constraints. -/
structure SlackEntry where
  pairp : Nat × Nat
  pairc : Nat × Nat
  sign : Int
  flip : Int
deriving DecidableEq, Repr

/-- The slack entries produced by `cross(model, layer)` for one (sorted)
upper layer, in loop order. -/
def crossEntries (g : Graph) (ids : List (Nat × (Nat × Nat)))
    (layer : List Nat) : List SlackEntry :=
  ((layerPairs layer).map (fun p12 =>
    ((childrenOf g p12.1).map (fun c1 =>
      ((childrenOf g p12.2).filter (fun c2 => c2 ≠ c1)).map (fun c2 =>
        let sign := compI ids c1 c2
        { pairp := p12, pairc := nkey ids c1 c2,
          sign := sign, flip := max sign 0 }))).flatten)).flatten

/-- Slack entries of the whole model: `cross` runs on every layer but the
last. -/
def allSlackEntries (g : Graph) (ids : List (Nat × (Nat × Nat)))
    (sorted : List (List Nat)) : List SlackEntry :=
  (sorted.dropLast.map (crossEntries g ids)).flatten

/-- Later writes win: the slack variable name and its two constraint names
are built from the (pairp, pairc) key strings, so a second creation event
with the same key silently overwrites the first one's constraints and
coefficients in the model object. -/
def lastWrites : List SlackEntry → List SlackEntry
  | [] => []
  | e :: rest =>
    if rest.any (fun f => f.pairp == e.pairp && f.pairc == e.pairc) then
      lastWrites rest
    else
      e :: lastWrites rest

/-- The integer program built by `optCall` (pair variables, transitivity
constraints by their three pair keys, resolved slack entries). -/
structure OptModel where
  pairs : List (Nat × Nat)
  triples : List ((Nat × Nat) × (Nat × Nat) × (Nat × Nat))
  slacks : List SlackEntry
deriving Repr

/-- Model construction, mirroring `optCall` up to the `Solve` call: assign
ids, sort every layer by id (`perms` does this in place), create pair
variables and transitivity constraints per layer, then crossing slacks per
adjacent layer pair. -/
def buildModel (g : Graph) (layers : List (List Nat)) : OptModel :=
  let ids := idsOf layers
  let sorted := layers.map (canonLayer ids)
  { pairs := (sorted.map layerPairs).flatten
    triples := (sorted.map (fun l => (layerTriples l).map
      (fun t => ((t.1, t.2.1), (t.1, t.2.2), (t.2.1, t.2.2))))).flatten
    slacks := lastWrites (allSlackEntries g ids sorted) }

/-- Value of a pair variable under a 0/1 assignment. -/
def pairVal (v : Nat × Nat → Bool) (k : Nat × Nat) : Int :=
  if v k then 1 else 0

/-- Feasibility of a 0/1 assignment of the pair variables: both
transitivity constraints, `0 ≤ pair1 - pair2 + pair3 ≤ 1`, for every
triangle.  (The pair bounds `0 ≤ p ≤ 1`, `p` integer, are inherent in the
Bool codomain.) -/
def Feasible (m : OptModel) (v : Nat × Nat → Bool) : Prop :=
  ∀ t ∈ m.triples,
    0 ≤ pairVal v t.1 - pairVal v t.2.1 + pairVal v t.2.2 ∧
      pairVal v t.1 - pairVal v t.2.1 + pairVal v t.2.2 ≤ 1

instance (m : OptModel) (v : Nat × Nat → Bool) : Decidable (Feasible m v) :=
  inferInstanceAs (Decidable (∀ t ∈ m.triples,
    0 ≤ pairVal v t.1 - pairVal v t.2.1 + pairVal v t.2.2 ∧
      pairVal v t.1 - pairVal v t.2.1 + pairVal v t.2.2 ≤ 1))

/-- Cost contributed by one slack variable at the solver optimum.  A slack
`s` appears with coefficient 1 in the objective and in its own two
constraints `s + P + sign*C ≥ flip` and `s - P - sign*C ≥ -flip` only, and
is nonnegative, so its optimal value is `|P + sign*C - flip|`. -/
def slackCost (v : Nat × Nat → Bool) (e : SlackEntry) : Nat :=
  (pairVal v e.pairp + e.sign * pairVal v e.pairc - e.flip).natAbs

/-- Objective of the model at a 0/1 assignment of the pair variables, with
every slack at its optimal (minimal feasible) value. -/
def objective (m : OptModel) (v : Nat × Nat → Bool) : Nat :=
  (m.slacks.map (slackCost v)).sum

/-- The assignment is feasible and no feasible assignment beats it: what
the external exact MILP solver contract promises to return. -/
def IsOptimal (m : OptModel) (v : Nat × Nat → Bool) : Prop :=
  Feasible m v ∧ ∀ w, Feasible m w → objective m v ≤ objective m w

/-- JavaScript `x || -1` applied to a possibly-missing solved value: both a
missing variable and a solved value of exactly 0 yield the fallback
multiplier -1. -/
def jsOr (v : Option Int) : Int :=
  match v with
  | none => -1
  | some x => if x = 0 then -1 else x

/-- Comparator of the final re-sort:
`(n1, n2) => comp(n1, n2) * (ordering[key(n1, n2)] || -1)`. -/
def finalLt (ids : List (Nat × (Nat × Nat))) (σ : Nat × Nat → Option Int)
    (n1 n2 : Nat) : Bool :=
  decide (compI ids n1 n2 * jsOr (σ (nkey ids n1 n2)) < 0)

/-- Final re-sort of one layer from the solved ordering. -/
def finalLayer (ids : List (Nat × (Nat × Nat))) (σ : Nat × Nat → Option Int)
    (l : List Nat) : List Nat :=
  sortCmp (finalLt ids σ) l

/-- Size guard quantity: the sum over layers of (layer size)². -/
def guardSize (layers : List (List Nat)) : Nat :=
  (layers.map (fun l => l.length * l.length)).sum

/-- The error message of the size guard. -/
def decrossOptMsg : String :=
  "size of dag to decrossOpt is too large and will likely crash not complete, enable clowntown to run anyway"

/-- The `optCall` function, parametrised by the solver's returned variable
map `σ` (the external `Solve`; theorems constrain it through
`buildModel`).  The guard is checked first; on the happy path every layer
is sorted to id order (by `perms`) and then re-sorted by the solved pair
values, and the mutated layer sequence is returned. -/
def optCallWith (clowntown : Bool) (g : Graph) (layers : List (List Nat))
    (σ : Nat × Nat → Option Int) : Except String (List (List Nat)) :=
  if ¬clowntown ∧ guardSize layers > 2500 then
    Except.error decrossOptMsg
  else
    Except.ok ((layers.map (canonLayer (idsOf layers))).map
      (finalLayer (idsOf layers) σ))

/-- Position of a node in a layer's order. -/
def posIn (l : List Nat) (n : Nat) : Nat :=
  l.findIdx (fun m => m == n)

/-- Edge crossings between one (ordered) upper layer and the (ordered)
layer below it: for every pair of upper nodes `u1` before `u2` and every
pair of distinct children `c1` of `u1`, `c2` of `u2`, the two edges cross
exactly when `c2` is placed before `c1`. -/
def layerCross (g : Graph) (top bot : List Nat) : Nat :=
  ((layerPairs top).map (fun p =>
    ((childrenOf g p.1).map (fun c1 =>
      ((childrenOf g p.2).filter (fun c2 => c2 ≠ c1)).countP
        (fun c2 => decide (posIn bot c2 < posIn bot c1)))).sum)).sum

/-- Total crossings of a layering: sum over adjacent layer pairs. -/
def totalCross (g : Graph) : List (List Nat) → Nat
  | top :: bot :: rest => layerCross g top bot + totalCross g (bot :: rest)
  | _ => 0

/-- All ways of inserting an element into a list. -/
def insertsOf (x : Nat) : List Nat → List (List Nat)
  | [] => [[x]]
  | y :: ys => (x :: y :: ys) :: (insertsOf x ys).map (fun l => y :: l)

/-- All permutations of a list (`mem_permsOf` proves the
characterisation). -/
def permsOf : List Nat → List (List Nat)
  | [] => [[]]
  | x :: xs => ((permsOf xs).map (insertsOf x)).flatten

/-- All reorderings of a layering: every per-layer permutation. -/
def allOrders : List (List Nat) → List (List (List Nat))
  | [] => [[]]
  | l :: ls => ((permsOf l).map (fun p => (allOrders ls).map
      (fun rest => p :: rest))).flatten

/-- The true minimum crossing count over all within-layer permutations. -/
def minCross (g : Graph) (layers : List (List Nat)) : Nat :=
  ((allOrders layers).map (totalCross g)).foldl min (totalCross g layers)

/-- Every edge out of a non-last layer lands in the layer directly
below. -/
def LayersLinked (g : Graph) : List (List Nat) → Prop
  | top :: bot :: rest =>
    (∀ n ∈ top, ∀ c ∈ childrenOf g n, c ∈ bot) ∧ LayersLinked g (bot :: rest)
  | _ => True

instance instDecLayersLinked (g : Graph) :
    (layers : List (List Nat)) → Decidable (LayersLinked g layers)
  | [] => isTrue trivial
  | [_] => isTrue trivial
  | _ :: bot :: rest =>
    have : Decidable (LayersLinked g (bot :: rest)) :=
      instDecLayersLinked g (bot :: rest)
    inferInstanceAs (Decidable (_ ∧ _))

/-- Valid layering: no node appears twice, every edge from a non-last
layer goes to the layer directly below, and the last layer has no
outgoing edges. -/
def ValidLayering (g : Graph) (layers : List (List Nat)) : Prop :=
  layers.flatten.Nodup ∧
  LayersLinked g layers ∧
  ∀ n ∈ (layers.getLast?).getD [], childrenOf g n = []

instance (g : Graph) (layers : List (List Nat)) :
    Decidable (ValidLayering g layers) :=
  inferInstanceAs (Decidable (layers.flatten.Nodup ∧
    LayersLinked g layers ∧
    ∀ n ∈ (layers.getLast?).getD [], childrenOf g n = []))

/-! ### Operator construction and configuration (claims C8, C9) -/
/-- Configuration state of the `opt` decrossing operator. -/
structure OptOperator where
  clowntown : Bool
deriving DecidableEq, Repr

/-- Configuration state of the `coffmanGraham` layering operator. -/
structure CGOperator where
  width : Int
deriving DecidableEq, Repr

/-- The constructor error message of `opt`. -/
def optArgsMsg : String :=
  "got arguments to opt(...), but constructor takes no aruguments."

/-- The constructor error message of `coffmanGraham`. -/
def cgArgsMsg : String :=
  "got arguments to coffmanGraham(...), but constructor takes no aruguments."

/-- The `opt()` factory: any positional argument raises before an operator
is built; otherwise the default operator has `clowntown = false`. -/
def optFactory (args : List Int) : Except String OptOperator :=
  if args.length ≠ 0 then Except.error optArgsMsg
  else Except.ok { clowntown := false }

/-- The `coffmanGraham()` factory: any positional argument raises before an
operator is built; otherwise the default operator has `width = 0`. -/
def cgFactory (args : List Int) : Except String CGOperator :=
  if args.length ≠ 0 then Except.error cgArgsMsg
  else Except.ok { width := 0 }

/-- The `clowntown(val)` setter: builds a fresh operator from a copy of the
options (`buildOperator({ ...options, clowntown: val })`). -/
def setClowntown (o : OptOperator) (val : Bool) : OptOperator :=
  { o with clowntown := val }

/-- The `clowntown()` getter. -/
def getClowntown (o : OptOperator) : Bool :=
  o.clowntown

/-- The width error message of the `width` setter. -/
def widthMsg : String := "width must be non-negative"

/-- The `width(maxWidth)` setter: a negative width raises at configuration
time; otherwise a fresh operator is built from a copy of the options. -/
def setWidth (o : CGOperator) (maxWidth : Int) : Except String CGOperator :=
  if maxWidth < 0 then Except.error widthMsg
  else Except.ok { o with width := maxWidth }

/-- The `width()` getter. -/
def getWidth (o : CGOperator) : Int :=
  o.width

/-- Point update of a solver result map. -/
def updateFn (σ : Nat × Nat → Option Int) (k : Nat × Nat)
    (v : Option Int) : Nat × Nat → Option Int :=
  fun x => if x = k then v else σ x

/-! ### Coffman-Graham layering (claims C2, C5, C6) -/
/-- Nodes of the graph in `for (const node of dag)` iteration order.  For
the layering operator every node of the dag carries an adjacency entry
(an empty children list for sinks). -/
def nodesOf (g : Graph) : List Nat :=
  g.map Prod.fst

/-- Parents of a node, in the order the initialisation loop pushes them
(one push per parent, in node-iteration order). -/
def parentsOf (g : Graph) (c : Nat) : List Nat :=
  (nodesOf g).filter (fun n => (childrenOf g n).contains c)

/-- Roots of the dag (`dag.iroots()`): the nodes without parents. -/
def rootsOf (g : Graph) : List Nat :=
  (nodesOf g).filter (fun n => (parentsOf g n).isEmpty)

/-- The priority-queue comparator `comp` of `coffmanGrahamCall`, on the
two "readiness" (`before`) lists: walk the left list; a position where the
right list is exhausted returns false, a strictly smaller (resp. larger)
left entry returns true (resp. false); if the left list is exhausted the
result is true. -/
def cgComp : List Nat → List Nat → Bool
  | [], _ => true
  | _ :: _, [] => false
  | l :: ls, r :: rs =>
    if l < r then true
    else if r < l then false
    else cgComp ls rs

/-- The effective maximum width of `coffmanGrahamCall`:
`options.width || Math.floor(Math.sqrt(dag.size() + 0.5))`.  For a node
count `n`, `Math.floor(Math.sqrt(n + 0.5))` equals `Nat.sqrt n`, because
no integer square lies strictly between `n` and `n + 0.5`; the bridging
theorem `autoWidth_floor_sqrt` proves this against the real-valued
expression of the source. -/
def effectiveMaxWidth (w : Nat) (n : Nat) : Nat :=
  if w = 0 then Nat.sqrt n else w

/-! ### The Coffman-Graham main loop (claim C2)

The external priority queue is modelled as a list plus, at every
iteration, an arbitrary pick of the element to dequeue.  Quantifying the
theorems over every pick sequence covers every element the real
comparator-driven heap could return, so the proved invariants hold for
the actual `fastpriorityqueue` behaviour whatever its tie-breaking. -/
/-- Mutable state of `coffmanGrahamCall`'s main loop: the `layer` fields
written so far (association list, newest first), the queue contents, the
`before` lists (`data`), and the counters `i`, `layer`, `width`. -/
structure CGState where
  layerAssign : List (Nat × Nat)
  queue : List Nat
  beforeMap : List (Nat × List Nat)
  idx : Nat
  layer : Nat
  width : Nat
deriving Repr

/-- The `layer` attribute of a node, if assigned. -/
def layerOf? (s : CGState) (n : Nat) : Option Nat :=
  List.lookup n s.layerAssign

/-- The `before` list of a node (initially empty). -/
def beforeOf (s : CGState) (c : Nat) : List Nat :=
  (List.lookup c s.beforeMap).getD []

/-- Replace (or add) the binding of one key in an association list. -/
def setAssoc : List (Nat × List Nat) → Nat → List Nat → List (Nat × List Nat)
  | [], k, v => [(k, v)]
  | (k', v') :: rest, k, v =>
    if k' = k then (k, v) :: rest else (k', v') :: setAssoc rest k v

/-- Descending sort — `before.sort((a, b) => b - a)`. -/
def sortDesc (l : List Nat) : List Nat :=
  sortCmp (fun a b => decide (b < a)) l

/-- Number of bindings of an assignment list at a given layer. -/
def countL (A : List (Nat × Nat)) (L : Nat) : Nat :=
  (A.filter (fun p => p.2 == L)).length

/-- Number of nodes assigned to a given layer. -/
def countLayer (s : CGState) (L : Nat) : Nat :=
  countL s.layerAssign L

/-- The then-branch condition `data.get(node).parents.every((p) =>
def(p.layer) < layer)` (an unassigned parent cannot occur when the node
comes out of the queue; the model makes that case false). -/
def parentsBelow (g : Graph) (s : CGState) (n : Nat) : Bool :=
  (parentsOf g n).all (fun p =>
    match layerOf? s p with
    | some lp => decide (lp < s.layer)
    | none => false)

/-- Per-child bookkeeping after a node is assigned: push the dequeue rank
`i` onto the child's `before` list and, exactly when the list reaches the
parent count, sort it descending and append the child to the queue. -/
def enqueueChildren (g : Graph) (i : Nat) : List Nat → CGState → CGState
  | [], st => st
  | c :: cs, st =>
    let b := beforeOf st c ++ [i]
    let st' :=
      if b.length = (parentsOf g c).length then
        { st with beforeMap := setAssoc st.beforeMap c (sortDesc b),
                  queue := st.queue ++ [c] }
      else
        { st with beforeMap := setAssoc st.beforeMap c b }
    enqueueChildren g i cs st'

/-- Loop body once the dequeued node `n` and the remaining queue `rest`
are fixed: assign `n` to the current layer if the width budget allows and
all its parents lie strictly above, otherwise open a new layer; then
update the children's readiness bookkeeping and bump the dequeue rank. -/
def cgStepGo (g : Graph) (maxW : Nat) (s : CGState) (n : Nat)
    (rest : List Nat) : CGState :=
  let s1 :=
    if s.width < maxW ∧ parentsBelow g s n then
      { s with layerAssign := (n, s.layer) :: s.layerAssign,
               queue := rest, width := s.width + 1 }
    else
      { s with layerAssign := (n, s.layer + 1) :: s.layerAssign,
               queue := rest, layer := s.layer + 1, width := 1 }
  let s2 := enqueueChildren g s.idx (childrenOf g n) s1
  { s2 with idx := s.idx + 1 }

/-- One iteration of the main loop: dequeue the picked element and run the
body on it. -/
def cgStep (g : Graph) (maxW : Nat) (s : CGState) (pick : Nat) : CGState :=
  match s.queue with
  | [] => s
  | q :: qs =>
    let k := pick % (q :: qs).length
    cgStepGo g maxW s ((q :: qs).getD k 0) ((q :: qs).eraseIdx k)

/-- The main loop, driven by the pick sequence; it stops when the queue is
exhausted (the real loop's only exit). -/
def cgRun (g : Graph) (maxW : Nat) : CGState → List Nat → CGState
  | s, [] => s
  | s, p :: ps =>
    match s.queue with
    | [] => s
    | _ :: _ => cgRun g maxW (cgStep g maxW s p) ps

/-- Initial state: the queue is seeded with the roots, nothing assigned,
counters zero. -/
def cgInit (g : Graph) : CGState :=
  { layerAssign := [], queue := rootsOf g, beforeMap := [],
    idx := 0, layer := 0, width := 0 }

/-- The whole `coffmanGrahamCall`, parametrised by the pick sequence. -/
def coffmanGrahamCall (g : Graph) (w : Nat) (picks : List Nat) : CGState :=
  cgRun g (effectiveMaxWidth w (nodesOf g).length) (cgInit g) picks

/-- Well-formedness of a dag for the layering operator: one adjacency
entry per node, duplicate-free children lists pointing at nodes. -/
def WellFormedG (g : Graph) : Prop :=
  (nodesOf g).Nodup ∧
  ∀ n ∈ nodesOf g, (childrenOf g n).Nodup ∧
    ∀ c ∈ childrenOf g n, c ∈ nodesOf g

instance (g : Graph) : Decidable (WellFormedG g) :=
  inferInstanceAs (Decidable ((nodesOf g).Nodup ∧
    ∀ n ∈ nodesOf g, (childrenOf g n).Nodup ∧
      ∀ c ∈ childrenOf g n, c ∈ nodesOf g))

/-- Acyclicity via a rank function: every edge strictly increases the
rank.  Every finite dag admits such a rank (any topological order). -/
def RankedAcyclic (g : Graph) (rank : Nat → Nat) : Prop :=
  ∀ n ∈ nodesOf g, ∀ c ∈ childrenOf g n, rank n < rank c

instance (g : Graph) (rank : Nat → Nat) :
    Decidable (RankedAcyclic g rank) :=
  inferInstanceAs (Decidable
    (∀ n ∈ nodesOf g, ∀ c ∈ childrenOf g n, rank n < rank c))

/-- The loop invariant maintained by `cgStep`. -/
structure CGInv (g : Graph) (maxW : Nat) (s : CGState) : Prop where
  keys_sub : ∀ pr ∈ s.layerAssign, pr.1 ∈ nodesOf g
  keys_nodup : (s.layerAssign.map Prod.fst).Nodup
  queue_sub : ∀ n ∈ s.queue, n ∈ nodesOf g
  queue_nodup : s.queue.Nodup
  queue_unassigned : ∀ n ∈ s.queue, layerOf? s n = none
  queue_ready : ∀ n ∈ s.queue, ∀ p ∈ parentsOf g n, (layerOf? s p).isSome
  layer_le : ∀ pr ∈ s.layerAssign, pr.2 ≤ s.layer
  width_eq : s.width = countLayer s s.layer
  above_empty : ∀ L, s.layer < L → countLayer s L = 0
  width_bound : ∀ L, countLayer s L ≤ maxW
  edge_lt : ∀ pr ∈ s.layerAssign, ∀ p ∈ parentsOf g pr.1,
      ∃ lp, layerOf? s p = some lp ∧ lp < pr.2
  ready_in_queue : ∀ n ∈ nodesOf g, layerOf? s n = none →
      (∀ p ∈ parentsOf g n, (layerOf? s p).isSome) → n ∈ s.queue
  before_len : ∀ n ∈ nodesOf g, (beforeOf s n).length =
      ((parentsOf g n).filter (fun p => (layerOf? s p).isSome)).length

/-! ### Claim C1: exact crossing minimization

The external solver is abstracted by its contract: it returns an optimal
feasible 0/1 assignment of the pair variables of the constructed model
(slack variables, which are continuous, nonnegative, and appear with
coefficient 1 in the objective and only in their own two constraints, sit
at `|P + sign*C - flip|` at any solver optimum — `slackCost`).  A result
map `σ` represents the assignment `v` when every pair key reads back the
multiplier the final sort uses: 1 for a solved 1, and (value 0 or key
omitted, which `Solve` does for zero variables) -1 for a solved 0. -/
def RepresentsAsg (m : OptModel) (σ : Nat × Nat → Option Int)
    (v : Nat × Nat → Bool) : Prop :=
  ∀ k ∈ m.pairs, jsOr (σ k) = if v k then 1 else -1

/-- Claim C1 as stated: for every valid layering that passes the size
guard, running `optCall` with any solver result fulfilling the exact-MILP
contract reorders the layers so that the crossing count of the result is
at most the crossing count of the original order and equals the true
minimum over all within-layer permutations. -/
def ClaimC1 : Prop :=
  ∀ (g : Graph) (layers : List (List Nat)) (σ : Nat × Nat → Option Int)
    (v : Nat × Nat → Bool) (out : List (List Nat)),
    ValidLayering g layers →
    guardSize layers ≤ 2500 →
    Feasible (buildModel g layers) v →
    (∀ w, Feasible (buildModel g layers) w →
      objective (buildModel g layers) v ≤ objective (buildModel g layers) w) →
    RepresentsAsg (buildModel g layers) σ v →
    optCallWith false g layers σ = Except.ok out →
    totalCross g out ≤ totalCross g layers ∧
    totalCross g out = minCross g layers

/-! ### Finite reduction of solver optimality -/
/-- Decode a vector of booleans, aligned with a key list, into an
assignment. -/
def decodeAsg : List (Nat × Nat) → List Bool → (Nat × Nat) → Bool
  | [], _, _ => false
  | _ :: _, [], _ => false
  | p :: ps, b :: bs, k => if p = k then b else decodeAsg ps bs k

/-- All boolean vectors of a given length. -/
def allVecs : Nat → List (List Bool)
  | 0 => [[]]
  | n + 1 =>
    (allVecs n).map (fun v => false :: v) ++
      (allVecs n).map (fun v => true :: v)

/-! ### The failing input for claim C1

Both parents 0 and 1 (layer 0) point at all four of 2, 3, 4, 5 (layer 1),
so every one of the six child pairs appears as a full K2,2.  For each such
pair both loop combinations produce the same slack name
`slack (pairp) (pairc)`; the second write silently overwrites the first,
so the model charges `[P12 ≠ C'last]` for a pair of edges whose crossing
count is in truth the constant 1.  The interleaved second-level gadget
(2, 4 → 6 and 3, 5 → 7) then makes an assignment that re-sorts layer 1
into children order globally model-optimal while producing 7 crossings,
although the given order (and others) produce only 6. -/
def cexGraph : Graph :=
  [(0, [2, 3, 4, 5]), (1, [2, 3, 4, 5]), (2, [6, 7]), (4, [6]), (5, [7])]

/-- The failing layering (a valid layering of `cexGraph` that passes the
size guard, with 6 crossings as given). -/
def cexLayers : List (List Nat) := [[0, 1], [4, 2, 3, 5], [6, 7]]

/-- The pair-variable keys of `buildModel cexGraph cexLayers`, in creation
order (proved below by `cexModel_eq`). -/
def cexPairs : List (Nat × Nat) :=
  [(0, 1), (4, 2), (4, 3), (4, 5), (2, 3), (2, 5), (3, 5), (6, 7)]

/-- The model `optCall` builds on the failing input, as a literal (proved
below by `cexModel_eq`). -/
def cexModel : OptModel :=
  { pairs := cexPairs
    triples := [((4, 2), (4, 3), (2, 3)), ((4, 2), (4, 5), (2, 5)),
      ((4, 3), (4, 5), (3, 5)), ((2, 3), (2, 5), (3, 5))]
    slacks := [
      { pairp := (0, 1), pairc := (2, 3), sign := 1, flip := 1 },
      { pairp := (0, 1), pairc := (4, 2), sign := -1, flip := 0 },
      { pairp := (0, 1), pairc := (4, 3), sign := -1, flip := 0 },
      { pairp := (0, 1), pairc := (2, 5), sign := 1, flip := 1 },
      { pairp := (0, 1), pairc := (3, 5), sign := 1, flip := 1 },
      { pairp := (0, 1), pairc := (4, 5), sign := 1, flip := 1 },
      { pairp := (4, 2), pairc := (6, 7), sign := -1, flip := 0 },
      { pairp := (4, 5), pairc := (6, 7), sign := -1, flip := 0 },
      { pairp := (2, 5), pairc := (6, 7), sign := -1, flip := 0 }] }

/-- One of the exactly two model-optimal 0/1 assignments: the one that
re-sorts layer 1 into children order (2, 3, 4, 5). -/
def cexV : (Nat × Nat) → Bool :=
  fun k =>
    ([(4, 5), (2, 3), (2, 5), (3, 5), (6, 7)] : List (Nat × Nat)).contains k

/-- The solver result map representing `cexV` (zero variables omitted, as
`javascript-lp-solver` omits them). -/
def cexSigma : (Nat × Nat) → Option Int :=
  fun k => if cexV k then some 1 else none

/-- What `optCall` returns on the failing input with that solver
result. -/
def cexOut : List (List Nat) := [[1, 0], [2, 3, 4, 5], [6, 7]]

/-- The other model-optimal 0/1 assignment (the mirror image): it
re-sorts layer 1 into (5, 4, 3, 2). -/
def cexV2 : (Nat × Nat) → Bool :=
  fun k => ([(0, 1), (4, 2), (4, 3)] : List (Nat × Nat)).contains k

/-- The solver result map representing `cexV2`. -/
def cexSigma2 : (Nat × Nat) → Option Int :=
  fun k => if cexV2 k then some 1 else none

/-- What `optCall` returns on the failing input with the mirror
solution. -/
def cexOut2 : List (List Nat) := [[0, 1], [5, 4, 3, 2], [7, 6]]

/-- The value vector of `cexV2` along `cexPairs`. -/
def cexVecA : List Bool :=
  [true, true, true, false, false, false, false, false]

/-- The value vector of `cexV` along `cexPairs`. -/
def cexVecB : List Bool :=
  [false, false, false, true, true, true, true, true]

instance (m : OptModel) (σ : Nat × Nat → Option Int)
    (v : Nat × Nat → Bool) : Decidable (RepresentsAsg m σ v) :=
  inferInstanceAs (Decidable
    (∀ k ∈ m.pairs, jsOr (σ k) = if v k then 1 else -1))

theorem insertCmp_perm (lt : α → α → Bool) (x : α) (l : List α) :
    (insertCmp lt x l).Perm (x :: l) := by
  induction l with
  | nil => simp [insertCmp]
  | cons y ys ih =>
    simp only [insertCmp]
    by_cases h : lt x y = true
    · simp [h]
    · simp only [h]
      exact (List.Perm.cons y ih).trans (List.Perm.swap x y ys)

theorem sortCmp_perm (lt : α → α → Bool) (l : List α) :
    (sortCmp lt l).Perm l := by
  induction l with
  | nil => simp [sortCmp]
  | cons x xs ih =>
    exact ((insertCmp_perm lt x (sortCmp lt xs)).trans (List.Perm.cons x ih))

/-! ### Theorems for claims C3, C4, C7, C8, C9, C10 -/
theorem mem_layerPairs {l : List Nat} {p : Nat × Nat}
    (h : p ∈ layerPairs l) : p.1 ∈ l ∧ p.2 ∈ l := by
  simp only [layerPairs, List.mem_flatten, List.mem_map] at h
  obtain ⟨sub, ⟨in1, hin1, rfl⟩, hp⟩ := h
  simp only [List.mem_map] at hp
  obtain ⟨m, hm, rfl⟩ := hp
  exact ⟨List.snd_mem_of_mem_enum hin1, List.drop_subset _ _ hm⟩

/-- Claim C3: on a layering whose Σ(layer size²) exceeds 2500, `optCall`
with `clowntown` unset returns the size-guard error (the guard is the
first statement of `optCall`, before any model construction and before the
first in-place `layer.sort`, so the caller's layer sequence is untouched),
while the same call with `clowntown` set proceeds past the guard and
returns a reordered layering. -/
theorem optCall_size_guard (g : Graph) (layers : List (List Nat))
    (σ : Nat × Nat → Option Int) (h : 2500 < guardSize layers) :
    optCallWith false g layers σ = Except.error decrossOptMsg ∧
    ∃ out, optCallWith true g layers σ = Except.ok out := by
  constructor
  · simp [optCallWith, h]
  · exact ⟨(layers.map (canonLayer (idsOf layers))).map
      (finalLayer (idsOf layers) σ), by simp [optCallWith]⟩

/-- Claim C3 witness. -/
theorem optCall_size_guard_witness :
    2500 < guardSize [List.range 51] ∧
    (optCallWith false [] [List.range 51] (fun _ => none) =
      Except.error decrossOptMsg ∧
     ∃ out, optCallWith true [] [List.range 51] (fun _ => none) =
      Except.ok out) :=
  ⟨by decide, optCall_size_guard [] [List.range 51] (fun _ => none)
    (by decide)⟩

theorem forall₂_map_perm (f : List Nat → List Nat)
    (h : ∀ l, (f l).Perm l) :
    ∀ layers : List (List Nat),
      List.Forall₂ (fun l' l => l'.Perm l) (layers.map f) layers := by
  intro layers
  induction layers with
  | nil => simp
  | cons l ls ih => exact List.Forall₂.cons (h l) ih

/-- Claim C4: whenever `optCall` succeeds (in particular on every valid
layering that passes the size guard), every output layer is a permutation
of the corresponding input layer: the result is produced by two in-place
sorts of each layer, so no node is added, removed or duplicated. -/
theorem optCall_permutes (clown : Bool) (g : Graph)
    (layers out : List (List Nat)) (σ : Nat × Nat → Option Int)
    (hv : ValidLayering g layers)
    (h : optCallWith clown g layers σ = Except.ok out) :
    List.Forall₂ (fun l' l => l'.Perm l) out layers := by
  unfold optCallWith at h
  split at h
  · exact absurd h (by simp)
  · simp only [Except.ok.injEq] at h
    subst h
    rw [List.map_map]
    exact forall₂_map_perm _
      (fun l => ((sortCmp_perm _ _).trans (sortCmp_perm _ _))) layers

/-- Claim C4 witness: a two-layer square layering; the output layers are
permutations of the input layers. -/
theorem optCall_permutes_witness :
    ValidLayering [(0, [2, 3]), (1, [2, 3])] [[0, 1], [2, 3]] ∧
    optCallWith false [(0, [2, 3]), (1, [2, 3])] [[0, 1], [2, 3]]
      (fun _ => some 1) = Except.ok [[0, 1], [2, 3]] ∧
    List.Forall₂ (fun l' l => l'.Perm l) [[0, 1], [2, 3]]
      [[0, 1], [2, 3]] :=
  ⟨by decide, by rfl,
    optCall_permutes false [(0, [2, 3]), (1, [2, 3])] [[0, 1], [2, 3]]
      [[0, 1], [2, 3]] (fun _ => some 1) (by decide) (by rfl)⟩

/-- Claim C7: a layer of size 0 or 1 creates no pair variables and no
transitivity triangles, and an upper layer none of whose nodes has a child
(no edges to the next layer) creates no crossing slack entries, hence no
crossing terms in the objective. -/
theorem boundary_empty_model :
    (∀ l : List Nat, l.length ≤ 1 → layerPairs l = [] ∧ layerTriples l = []) ∧
    (∀ (g : Graph) (ids : List (Nat × (Nat × Nat))) (l : List Nat),
      (∀ n ∈ l, childrenOf g n = []) → crossEntries g ids l = []) := by
  constructor
  · intro l hl
    match l, hl with
    | [], _ => exact ⟨rfl, rfl⟩
    | [x], _ => exact ⟨rfl, rfl⟩
  · intro g ids l h
    unfold crossEntries
    rw [List.flatten_eq_nil_iff]
    intro sub hsub
    simp only [List.mem_map] at hsub
    obtain ⟨p, hp, rfl⟩ := hsub
    rw [h p.1 (mem_layerPairs hp).1]
    rfl

/-- Claim C7 witness. -/
theorem boundary_empty_model_witness :
    ([5].length ≤ 1 ∧ layerPairs [5] = [] ∧ layerTriples [5] = []) ∧
    ((∀ n ∈ [7, 8], childrenOf [(1, [3])] n = []) ∧
      crossEntries [(1, [3])] [] [7, 8] = []) :=
  ⟨⟨by decide, boundary_empty_model.1 [5] (by decide)⟩,
   ⟨by decide, boundary_empty_model.2 [(1, [3])] [] [7, 8] (by decide)⟩⟩

theorem jsOr_update (σ : Nat × Nat → Option Int) (k : Nat × Nat)
    (x : Nat × Nat) :
    jsOr (updateFn σ k (some 0) x) = jsOr (updateFn σ k none x) := by
  unfold updateFn
  by_cases h : x = k <;> simp [h, jsOr]

theorem finalLayer_update (ids : List (Nat × (Nat × Nat)))
    (σ : Nat × Nat → Option Int) (k : Nat × Nat) :
    finalLayer ids (updateFn σ k (some 0)) =
      finalLayer ids (updateFn σ k none) := by
  funext l
  unfold finalLayer
  congr 1
  funext n1 n2
  unfold finalLt
  rw [jsOr_update]

/-- Claim C10: in the final re-sort, a pair variable whose solved value is
exactly 0 and a pair variable missing from the solver's result map behave
identically — `ordering[key] || -1` maps both to the fallback multiplier
-1 — so the two calls return the same reordered layering. -/
theorem zero_value_eq_missing (clown : Bool) (g : Graph)
    (layers : List (List Nat)) (σ : Nat × Nat → Option Int)
    (k : Nat × Nat) :
    (jsOr (some 0) = -1 ∧ jsOr none = -1) ∧
    optCallWith clown g layers (updateFn σ k (some 0)) =
      optCallWith clown g layers (updateFn σ k none) := by
  refine ⟨⟨rfl, rfl⟩, ?_⟩
  unfold optCallWith
  split
  · rfl
  · rw [finalLayer_update]

/-- Claim C8: positional arguments to either factory raise before an
operator is constructed; a negative width raises at configuration time
(the setter body, before any graph is seen); a nonnegative width is stored
exactly as given, never clamped. -/
theorem factories_and_width_reject :
    (∀ args : List Int, args ≠ [] →
      optFactory args = Except.error optArgsMsg ∧
      cgFactory args = Except.error cgArgsMsg) ∧
    (∀ (o : CGOperator) (m : Int), m < 0 →
      setWidth o m = Except.error widthMsg) ∧
    (∀ (o : CGOperator) (m : Int), 0 ≤ m →
      setWidth o m = Except.ok { width := m }) := by
  refine ⟨?_, ?_, ?_⟩
  · intro args h
    have : args.length ≠ 0 := by
      cases args with
      | nil => exact absurd rfl h
      | cons a as => simp
    constructor <;> simp [optFactory, cgFactory, this]
  · intro o m h
    simp [setWidth, h]
  · intro o m h
    have : ¬m < 0 := not_lt.mpr h
    simp [setWidth, this]

/-- Claim C8 witness. -/
theorem factories_and_width_reject_witness :
    (([3] : List Int) ≠ [] ∧
      optFactory [3] = Except.error optArgsMsg ∧
      cgFactory [3] = Except.error cgArgsMsg) ∧
    ((-2 : Int) < 0 ∧ setWidth { width := 5 } (-2) = Except.error widthMsg) ∧
    ((0 : Int) ≤ 7 ∧ setWidth { width := 5 } 7 = Except.ok { width := 7 }) :=
  ⟨⟨by decide, factories_and_width_reject.1 [3] (by decide)⟩,
   ⟨by decide, factories_and_width_reject.2.1 { width := 5 } (-2) (by decide)⟩,
   ⟨by decide, factories_and_width_reject.2.2 { width := 5 } 7 (by decide)⟩⟩

/-- Claim C9: each setter returns a fresh configured operator (a copy of
the options record with the one field replaced) and the original
operator's configuration is untouched: its getter returns the same value
as before the setter call. -/
theorem setters_return_fresh_instance :
    (∀ (o : OptOperator) (v : Bool),
      getClowntown (setClowntown o v) = v ∧
      getClowntown o = o.clowntown ∧
      setClowntown o v = { clowntown := v }) ∧
    (∀ (o : CGOperator) (m : Int) (o2 : CGOperator),
      setWidth o m = Except.ok o2 →
      getWidth o2 = m ∧ getWidth o = o.width) := by
  refine ⟨fun o v => ⟨rfl, rfl, rfl⟩, fun o m o2 h => ?_⟩
  unfold setWidth at h
  split at h
  · exact absurd h (by simp)
  · simp only [Except.ok.injEq] at h
    subst h
    exact ⟨rfl, rfl⟩

/-- Claim C9 witness. -/
theorem setters_return_fresh_instance_witness :
    (getClowntown (setClowntown { clowntown := false } true) = true ∧
      getClowntown { clowntown := false } = false ∧
      setClowntown { clowntown := false } true = { clowntown := true }) ∧
    (setWidth { width := 2 } 9 = Except.ok { width := 9 } ∧
      getWidth { width := 9 } = 9 ∧ getWidth { width := 2 } = 2) :=
  ⟨setters_return_fresh_instance.1 { clowntown := false } true,
   by
    have := setters_return_fresh_instance.2 { width := 2 } 9 { width := 9 }
      (by rfl)
    exact ⟨by rfl, this.1, this.2⟩⟩

theorem floor_sqrt_add_half (n : ℕ) :
    ⌊Real.sqrt ((n : ℝ) + 1 / 2)⌋ = (Nat.sqrt n : ℤ) := by
  have h0 : (0 : ℝ) ≤ (n : ℝ) + 1 / 2 := by positivity
  have hlow : ((Nat.sqrt n : ℝ)) ≤ Real.sqrt ((n : ℝ) + 1 / 2) := by
    rw [show ((Nat.sqrt n : ℝ)) = Real.sqrt ((Nat.sqrt n : ℝ) ^ 2) from
      (Real.sqrt_sq (by positivity)).symm]
    apply Real.sqrt_le_sqrt
    have h1 : ((Nat.sqrt n ^ 2 : ℕ) : ℝ) ≤ (n : ℝ) :=
      Nat.cast_le.mpr (Nat.sqrt_le' n)
    push_cast at h1
    linarith
  have hhigh : Real.sqrt ((n : ℝ) + 1 / 2) < (Nat.sqrt n : ℝ) + 1 := by
    have h1 : (n : ℕ) < Nat.sqrt n ^ 2 + 2 * Nat.sqrt n + 1 := by
      have := Nat.lt_succ_sqrt' n
      calc n < (Nat.sqrt n).succ ^ 2 := this
      _ = Nat.sqrt n ^ 2 + 2 * Nat.sqrt n + 1 := by
            rw [Nat.succ_eq_add_one]; ring
    have h2 : (n : ℝ) + 1 / 2 < ((Nat.sqrt n : ℝ) + 1) ^ 2 := by
      have h3 : ((n : ℝ)) + 1 ≤
          ((Nat.sqrt n ^ 2 + 2 * Nat.sqrt n + 1 : ℕ) : ℝ) := by
        exact_mod_cast Nat.succ_le_of_lt h1
      push_cast at h3
      nlinarith
    calc Real.sqrt ((n : ℝ) + 1 / 2) <
        Real.sqrt (((Nat.sqrt n : ℝ) + 1) ^ 2) := Real.sqrt_lt_sqrt h0 h2
    _ = (Nat.sqrt n : ℝ) + 1 := Real.sqrt_sq (by positivity)
  rw [Int.floor_eq_iff] <;> push_cast <;> constructor
  · exact hlow
  · exact hhigh

/-- Claim C5 counterexample: at a dag of 3 nodes with `width = 0`, the
effective maximum width computed by the code,
`Math.floor(Math.sqrt(3 + 0.5)) = 1`, differs from round(√3) = 2, so the
claimed "round to the nearest integer" is wrong. -/
theorem autoWidth_ne_round_sqrt :
    ((effectiveMaxWidth 0 3 : ℕ) : ℤ) ≠ round (Real.sqrt 3) := by
  have h2 : round (Real.sqrt 3) = 2 := by
    have hlow : (3 : ℝ) / 2 ≤ Real.sqrt 3 := by
      rw [show (3 : ℝ) / 2 = Real.sqrt ((3 / 2) ^ 2) from
        (Real.sqrt_sq (by norm_num)).symm]
      apply Real.sqrt_le_sqrt
      norm_num
    have hhigh : Real.sqrt 3 < 5 / 2 := by
      have : Real.sqrt 3 < Real.sqrt ((5 / 2) ^ 2) := by
        apply Real.sqrt_lt_sqrt (by norm_num)
        norm_num
      rwa [Real.sqrt_sq (by norm_num)] at this
    rw [round_eq, show ((2 : ℤ)) = ((2 : ℤ)) from rfl, Int.floor_eq_iff]
    constructor
    · push_cast; linarith
    · push_cast; linarith
  rw [h2]
  norm_num [effectiveMaxWidth]

/-- Claim C5 (amended): with `width = 0` the effective maximum width used
by `coffmanGrahamCall` for an `n`-node dag is
`Math.floor(Math.sqrt(n + 0.5))` — the floor, not the rounding, of the
square root (equivalently `Nat.sqrt n`). -/
theorem autoWidth_floor_sqrt (n : ℕ) :
    ((effectiveMaxWidth 0 n : ℕ) : ℤ) = ⌊Real.sqrt ((n : ℝ) + 1 / 2)⌋ := by
  rw [floor_sqrt_add_half]
  simp [effectiveMaxWidth]

/-- Claim C6 counterexample: the readiness lists `[0]` and `[0, 1]` are in
strict-prefix relation, yet the comparator does not treat them as equal:
it strictly prefers the shorter (prefix) list — `comp` answers true one
way and false the other. -/
theorem cgComp_strict_pref_counterexample :
    (∃ t, t ≠ [] ∧ [0, 1] = [0] ++ t) ∧
    cgComp [0] [0, 1] = true ∧ cgComp [0, 1] [0] = false :=
  ⟨⟨[1], by decide, rfl⟩, rfl, rfl⟩

/-- Claim C6 (amended): if one readiness list is a proper prefix of the
other, the node holding the prefix compares strictly before the other
node (the comparator answers true for (prefix, extension) and false for
(extension, prefix)); they do not compare equal. -/
theorem cgComp_strict_pref (l t : List Nat) (h : t ≠ []) :
    cgComp l (l ++ t) = true ∧ cgComp (l ++ t) l = false := by
  induction l with
  | nil =>
    match t, h with
    | x :: xs, _ => exact ⟨rfl, rfl⟩
  | cons a ls ih =>
    simpa [cgComp] using ih

/-- Claim C6 witness. -/
theorem cgComp_strict_pref_witness :
    ([3] : List Nat) ≠ [] ∧
    cgComp [5] ([5] ++ [3]) = true ∧ cgComp ([5] ++ [3]) [5] = false :=
  ⟨by decide, cgComp_strict_pref [5] [3] (by decide)⟩

/-! ### Helper lemmas for the Coffman-Graham invariant proof -/
theorem lookup_mem {β : Type} {m : List (Nat × β)} {k : Nat} {v : β}
    (h : List.lookup k m = some v) : (k, v) ∈ m := by
  induction m with
  | nil => simp [List.lookup] at h
  | cons e rest ih =>
    obtain ⟨n, w⟩ := e
    simp only [List.lookup] at h
    by_cases he : k = n
    · subst he
      simp only [beq_self_eq_true] at h
      injection h with h
      subst h
      exact List.mem_cons_self _ _
    · have : (k == n) = false := beq_false_of_ne he
      rw [this] at h
      exact List.mem_cons_of_mem _ (ih h)

theorem lookup_none_iff {β : Type} (m : List (Nat × β)) (k : Nat) :
    List.lookup k m = none ↔ k ∉ m.map Prod.fst := by
  induction m with
  | nil => simp [List.lookup]
  | cons e rest ih =>
    obtain ⟨n, w⟩ := e
    by_cases he : k = n
    · subst he
      simp [List.lookup]
    · have hb : (k == n) = false := beq_false_of_ne he
      simp [List.lookup, hb, ih, he]

theorem lookup_isSome_of_key {β : Type} {m : List (Nat × β)} {k : Nat}
    (h : k ∈ m.map Prod.fst) : (List.lookup k m).isSome := by
  cases hl : List.lookup k m with
  | none => exact absurd h ((lookup_none_iff m k).mp hl)
  | some v => rfl

theorem lookup_setAssoc_self (m : List (Nat × List Nat)) (k : Nat)
    (v : List Nat) : List.lookup k (setAssoc m k v) = some v := by
  induction m with
  | nil => simp [setAssoc, List.lookup]
  | cons e rest ih =>
    obtain ⟨n, w⟩ := e
    by_cases he : n = k
    · subst he
      simp [setAssoc, List.lookup]
    · have hb : (k == n) = false := beq_false_of_ne (Ne.symm he)
      simp [setAssoc, he, List.lookup, hb, ih]

theorem lookup_setAssoc_ne (m : List (Nat × List Nat)) (k : Nat)
    (v : List Nat) (k' : Nat) (h : k' ≠ k) :
    List.lookup k' (setAssoc m k v) = List.lookup k' m := by
  induction m with
  | nil => simp [setAssoc, List.lookup, beq_false_of_ne h]
  | cons e rest ih =>
    obtain ⟨n, w⟩ := e
    by_cases he : n = k
    · subst he
      simp [setAssoc, List.lookup, beq_false_of_ne h]
    · simp only [setAssoc, if_neg he, List.lookup]
      cases hb : (k' == n) <;> simp [ih]

theorem length_filter_compl {α : Type} (l : List α) (p : α → Bool) :
    (l.filter p).length + (l.filter (fun x => !p x)).length = l.length := by
  induction l with
  | nil => rfl
  | cons a t ih =>
    cases hp : p a <;> simp [List.filter, hp, ← ih] <;> omega

theorem length_le_one_of_all_eq {α : Type} {l : List α} {a : α}
    (hnd : l.Nodup) (hall : ∀ x ∈ l, x = a) : l.length ≤ 1 := by
  match l, hnd, hall with
  | [], _, _ => simp
  | [x], _, _ => simp
  | x :: y :: t, hnd, hall =>
    exfalso
    have hx : x = a := hall x (by simp)
    have hy : y = a := hall y (by simp)
    subst hx
    rw [hy] at hnd
    simp at hnd

theorem filter_length_flip (p q : Nat → Bool) (a : Nat) :
    ∀ l : List Nat, l.Nodup → a ∈ l → p a = false → q a = true →
    (∀ x ∈ l, x ≠ a → q x = p x) →
    (l.filter q).length = (l.filter p).length + 1 := by
  intro l
  induction l with
  | nil => intro _ ha; simp at ha
  | cons b t ih =>
    intro hl ha hpa hqa hagree
    rcases List.mem_cons.mp ha with hb | hat
    · rw [← hb] at hl ⊢
      have hqt : t.filter q = t.filter p := by
        apply List.filter_congr
        intro x hx
        have hxb : x ≠ a := fun he => (List.nodup_cons.mp hl).1 (he ▸ hx)
        exact hagree x (hb ▸ List.mem_cons_of_mem _ hx) hxb
      simp [List.filter, hpa, hqa, hqt]
    · have hba : b ≠ a := fun he => (List.nodup_cons.mp hl).1 (he ▸ hat)
      have hqb : q b = p b := hagree b (by simp) hba
      have iht := ih (List.nodup_cons.mp hl).2 hat hpa hqa
        (fun x hx hxa => hagree x (List.mem_cons_of_mem _ hx) hxa)
      cases hpb : p b <;> rw [hpb] at hqb <;>
        simp [List.filter, hqb, hpb, iht]

theorem mem_parentsOf {g : Graph} {n c : Nat} :
    n ∈ parentsOf g c ↔ n ∈ nodesOf g ∧ c ∈ childrenOf g n := by
  simp [parentsOf, List.mem_filter, List.elem_eq_mem]

theorem sortDesc_length (l : List Nat) : (sortDesc l).length = l.length :=
  (sortCmp_perm _ l).length_eq

theorem enqueueChildren_frame (g : Graph) (i : Nat) :
    ∀ (cs : List Nat) (st : CGState),
      (enqueueChildren g i cs st).layerAssign = st.layerAssign ∧
      (enqueueChildren g i cs st).idx = st.idx ∧
      (enqueueChildren g i cs st).layer = st.layer ∧
      (enqueueChildren g i cs st).width = st.width := by
  intro cs
  induction cs with
  | nil => intro st; exact ⟨rfl, rfl, rfl, rfl⟩
  | cons c cs ih =>
    intro st
    simp only [enqueueChildren]
    split <;> exact ih _

theorem beforeOf_enqueue_notMem (g : Graph) (i : Nat) :
    ∀ (cs : List Nat) (st : CGState) (x : Nat), x ∉ cs →
      beforeOf (enqueueChildren g i cs st) x = beforeOf st x := by
  intro cs
  induction cs with
  | nil => intro st x _; rfl
  | cons c cs ih =>
    intro st x hx
    have hxc : x ≠ c := fun he => hx (he ▸ List.mem_cons_self _ _)
    have hxcs : x ∉ cs := fun hm => hx (List.mem_cons_of_mem _ hm)
    simp only [enqueueChildren]
    split <;>
      rw [ih _ x hxcs] <;>
      simp [beforeOf, lookup_setAssoc_ne _ _ _ _ hxc]

theorem beforeOf_enqueue_mem (g : Graph) (i : Nat) :
    ∀ (cs : List Nat) (st : CGState) (c : Nat), cs.Nodup → c ∈ cs →
      (beforeOf (enqueueChildren g i cs st) c).length =
        (beforeOf st c).length + 1 := by
  intro cs
  induction cs with
  | nil => intro st c _ hc; simp at hc
  | cons d cs ih =>
    intro st c hnd hc
    rcases List.mem_cons.mp hc with hcd | hcs
    · subst hcd
      have hnotin : c ∉ cs := (List.nodup_cons.mp hnd).1
      simp only [enqueueChildren]
      split <;>
        rw [beforeOf_enqueue_notMem g i cs _ c hnotin] <;>
        simp [beforeOf, lookup_setAssoc_self, sortDesc_length]
    · have hcd : c ≠ d := fun he =>
        (List.nodup_cons.mp hnd).1 (he ▸ hcs)
      simp only [enqueueChildren]
      split <;>
        · rw [ih _ c (List.nodup_cons.mp hnd).2 hcs]
          simp [beforeOf, lookup_setAssoc_ne _ _ _ _ hcd]

theorem queue_enqueue (g : Graph) (i : Nat) :
    ∀ (cs : List Nat) (st : CGState), cs.Nodup →
      (enqueueChildren g i cs st).queue = st.queue ++ cs.filter
        (fun c =>
          decide ((beforeOf st c).length + 1 = (parentsOf g c).length)) := by
  intro cs
  induction cs with
  | nil => intro st _; simp [enqueueChildren]
  | cons c cs ih =>
    intro st hnd
    have hnotin : c ∉ cs := (List.nodup_cons.mp hnd).1
    have hfc : ∀ st' : CGState, (∀ x ∈ cs, beforeOf st' x = beforeOf st x) →
        cs.filter (fun x =>
          decide ((beforeOf st' x).length + 1 = (parentsOf g x).length)) =
        cs.filter (fun x =>
          decide ((beforeOf st x).length + 1 = (parentsOf g x).length)) := by
      intro st' hagree
      apply List.filter_congr
      intro x hx
      rw [hagree x hx]
    have hlen : (beforeOf st c ++ [i]).length = (beforeOf st c).length + 1 :=
      by simp
    have hbefore : ∀ v (x : Nat), x ∈ cs →
        beforeOf { st with beforeMap := setAssoc st.beforeMap c v,
                           queue := st.queue ++ [c] } x = beforeOf st x ∧
        beforeOf { st with beforeMap := setAssoc st.beforeMap c v } x =
          beforeOf st x := by
      intro v x hx
      have hxc : x ≠ c := by
        intro he
        exact hnotin (he ▸ hx)
      constructor <;> simp [beforeOf, lookup_setAssoc_ne _ _ _ _ hxc]
    simp only [enqueueChildren, List.filter_cons]
    by_cases hcond :
        (beforeOf st c ++ [i]).length = (parentsOf g c).length
    · have hcond' : ((beforeOf st c).length + 1 = (parentsOf g c).length) :=
        by rw [← hlen]; exact hcond
      rw [if_pos hcond, ih _ (List.nodup_cons.mp hnd).2,
        hfc _ (fun x hx => (hbefore _ x hx).1)]
      simp [hcond']
    · have hcond' : ¬((beforeOf st c).length + 1 = (parentsOf g c).length) :=
        by rw [← hlen]; exact hcond
      rw [if_neg hcond, ih _ (List.nodup_cons.mp hnd).2,
        hfc _ (fun x hx => (hbefore _ x hx).2)]
      simp [hcond']

theorem lookup_cons_self {β : Type} (A : List (Nat × β)) (n : Nat) (L : β) :
    List.lookup n ((n, L) :: A) = some L := by
  simp [List.lookup]

theorem lookup_cons_ne {β : Type} (A : List (Nat × β)) (n m : Nat) (L : β)
    (h : m ≠ n) : List.lookup m ((n, L) :: A) = List.lookup m A := by
  simp [List.lookup, beq_false_of_ne h]

theorem countL_cons (A : List (Nat × Nat)) (n L L' : Nat) :
    countL ((n, L) :: A) L' =
      countL A L' + (if L = L' then 1 else 0) := by
  simp only [countL, List.filter_cons]
  by_cases h : L = L'
  · simp [h]
  · simp [h, beq_false_of_ne h]

theorem eraseIdx_facts {α : Type} (l : List α) (k : Nat)
    (hk : k < l.length) (hnd : l.Nodup) :
    l[k] ∉ l.eraseIdx k ∧ (∀ m ∈ l, m ≠ l[k] → m ∈ l.eraseIdx k) := by
  have hdrop : l.drop k = l[k] :: l.drop (k + 1) :=
    List.drop_eq_getElem_cons hk
  have hdecomp : l = l.take k ++ l[k] :: l.drop (k + 1) := by
    conv_lhs => rw [← List.take_append_drop k l]
    rw [hdrop]
  have hnd' : (l.take k ++ l[k] :: l.drop (k + 1)).Nodup := hdecomp ▸ hnd
  have hsplit : l[k] ∉ l.take k ∧ l[k] ∉ l.drop (k + 1) := by
    rw [List.nodup_append] at hnd'
    obtain ⟨h1, h2, h3⟩ := hnd'
    exact ⟨fun hmem => h3 hmem (List.mem_cons_self _ _),
      (List.nodup_cons.mp h2).1⟩
  rw [List.eraseIdx_eq_take_drop_succ]
  constructor
  · intro hmem
    rcases List.mem_append.mp hmem with h1 | h2
    · exact hsplit.1 h1
    · exact hsplit.2 h2
  · intro m hm hne
    rw [hdecomp] at hm
    rcases List.mem_append.mp hm with h1 | h2
    · exact List.mem_append.mpr (Or.inl h1)
    · rcases List.mem_cons.mp h2 with h3 | h4
      · exact absurd h3 hne
      · exact List.mem_append.mpr (Or.inr h4)

theorem cgInit_inv (g : Graph) (maxW : Nat) (hwf : WellFormedG g) :
    CGInv g maxW (cgInit g) := by
  refine ⟨?_, ?_, ?_, ?_, ?_, ?_, ?_, ?_, ?_, ?_, ?_, ?_, ?_⟩
  · intro pr hpr; simp [cgInit] at hpr
  · simp [cgInit]
  · intro n hn
    exact List.mem_of_mem_filter
      (show n ∈ (nodesOf g).filter (fun m => (parentsOf g m).isEmpty) from hn)
  · exact hwf.1.filter _
  · intro n _; rfl
  · intro n hn p hp
    simp only [cgInit, rootsOf, List.mem_filter] at hn
    rw [List.isEmpty_iff] at hn
    rw [hn.2] at hp
    simp at hp
  · intro pr hpr; simp [cgInit] at hpr
  · rfl
  · intro L _; rfl
  · intro L; simp [cgInit, countLayer, countL]
  · intro pr hpr; simp [cgInit] at hpr
  · intro n hn _ hready
    have hempty : parentsOf g n = [] := by
      cases hpar : parentsOf g n with
      | nil => rfl
      | cons p ps =>
        have := hready p (by rw [hpar]; simp)
        simp [layerOf?, cgInit, List.lookup] at this
    simp [cgInit, rootsOf, List.mem_filter, hn, hempty]
  · intro n _
    have h1 : beforeOf (cgInit g) n = [] := rfl
    have h2 : ∀ p, (layerOf? (cgInit g) p).isSome = false := by
      intro p; rfl
    rw [h1]
    rw [List.filter_congr (fun p _ => h2 p)]
    simp

theorem cgStepGo_inv_core (g : Graph) (maxW : Nat) (rank : Nat → Nat)
    (hwf : WellFormedG g) (hacyc : RankedAcyclic g rank)
    (s : CGState) (n : Nat) (rest : List Nat)
    (inv : CGInv g maxW s)
    (hmem : n ∈ s.queue) (hnotin : n ∉ rest)
    (hrest_sub : ∀ m ∈ rest, m ∈ s.queue) (hrest_nodup : rest.Nodup)
    (hmem_rest : ∀ m ∈ s.queue, m ≠ n → m ∈ rest)
    (Ln lay' w' : Nat)
    (hlay_mono : s.layer ≤ lay') (hLn_le : Ln ≤ lay')
    (hedge_n : ∀ p ∈ parentsOf g n,
      ∃ lp, layerOf? s p = some lp ∧ lp < Ln)
    (hw' : w' = countL ((n, Ln) :: s.layerAssign) lay')
    (hbound : ∀ L, countL ((n, Ln) :: s.layerAssign) L ≤ maxW)
    (habove : ∀ L, lay' < L → countL ((n, Ln) :: s.layerAssign) L = 0) :
    CGInv g maxW ({ (enqueueChildren g s.idx (childrenOf g n)
      { s with layerAssign := (n, Ln) :: s.layerAssign, queue := rest,
               layer := lay', width := w' }) with idx := s.idx + 1 }) := by
  set ch := childrenOf g n with hch_def
  set s1 : CGState :=
    { s with layerAssign := (n, Ln) :: s.layerAssign, queue := rest,
             layer := lay', width := w' } with hs1_def
  set s2 := enqueueChildren g s.idx ch s1 with hs2_def
  set s' : CGState := { s2 with idx := s.idx + 1 } with hs'_def
  -- basic facts about the dequeued node
  have hn_node : n ∈ nodesOf g := inv.queue_sub n hmem
  have hn_unassigned : layerOf? s n = none := inv.queue_unassigned n hmem
  have hch_nodup : ch.Nodup := (hwf.2 n hn_node).1
  have hch_sub : ∀ c ∈ ch, c ∈ nodesOf g := (hwf.2 n hn_node).2
  have hn_not_child : n ∉ ch := fun h =>
    lt_irrefl _ (hacyc n hn_node n h)
  have hch_unassigned : ∀ c ∈ ch, layerOf? s c = none := by
    intro c hc
    cases hl : layerOf? s c with
    | none => rfl
    | some L =>
      exfalso
      obtain ⟨lp, hlp, _⟩ := inv.edge_lt (c, L) (lookup_mem hl) n
        (mem_parentsOf.mpr ⟨hn_node, hc⟩)
      rw [hn_unassigned] at hlp
      exact Option.noConfusion hlp
  have hch_not_queue : ∀ c ∈ ch, c ∉ s.queue := by
    intro c hc hcq
    have := inv.queue_ready c hcq n (mem_parentsOf.mpr ⟨hn_node, hc⟩)
    rw [hn_unassigned] at this
    simp at this
  -- the frame through the enqueue phase
  obtain ⟨hfA, hfI, hfL, hfW⟩ := enqueueChildren_frame g s.idx ch s1
  have hA' : s'.layerAssign = (n, Ln) :: s.layerAssign := hfA
  have hL' : s'.layer = lay' := hfL
  have hW' : s'.width = w' := hfW
  -- layer lookups in the new state
  have hlook : ∀ m, layerOf? s' m = List.lookup m ((n, Ln) :: s.layerAssign) := by
    intro m
    show List.lookup m s'.layerAssign = _
    rw [hA']
  have hlayn : layerOf? s' n = some Ln := by
    rw [hlook, lookup_cons_self]
  have hlayne : ∀ m, m ≠ n → layerOf? s' m = layerOf? s m := by
    intro m hm
    rw [hlook, lookup_cons_ne _ _ _ _ hm]
    rfl
  have hsomene : ∀ m, (layerOf? s m).isSome → (layerOf? s' m).isSome := by
    intro m hm
    by_cases hmn : m = n
    · rw [hmn, hlayn]; rfl
    · rw [hlayne m hmn]; exact hm
  -- the queue of the new state
  have hbef1 : ∀ c, beforeOf s1 c = beforeOf s c := fun c => rfl
  have hqueue : s'.queue = rest ++ ch.filter
      (fun c =>
        decide ((beforeOf s c).length + 1 = (parentsOf g c).length)) := by
    show s2.queue = _
    rw [hs2_def, queue_enqueue g s.idx ch s1 hch_nodup]
    rfl
  set newList := ch.filter
    (fun c =>
      decide ((beforeOf s c).length + 1 = (parentsOf g c).length))
    with hnew_def
  have hnew_sub : ∀ c ∈ newList, c ∈ ch := fun c hc =>
    List.mem_of_mem_filter hc
  have hnew_char : ∀ c, c ∈ newList ↔ c ∈ ch ∧
      (beforeOf s c).length + 1 = (parentsOf g c).length := by
    intro c
    simp [hnew_def, List.mem_filter]
  -- before lists in the new state
  have hbef_mem : ∀ c ∈ ch, (beforeOf s' c).length =
      (beforeOf s c).length + 1 := by
    intro c hc
    show (beforeOf s2 c).length = _
    rw [hs2_def, beforeOf_enqueue_mem g s.idx ch s1 c hch_nodup hc]
    rfl
  have hbef_not : ∀ x, x ∉ ch → beforeOf s' x = beforeOf s x := by
    intro x hx
    show beforeOf s2 x = _
    rw [hs2_def, beforeOf_enqueue_notMem g s.idx ch s1 x hx]
    rfl
  -- parents of a node never include the node's own children's machinery
  have hpar_nodup : ∀ m, (parentsOf g m).Nodup := fun m => hwf.1.filter _
  -- the key counting fact: a child of n that is fully ready in s' has,
  -- in s, exactly one unassigned parent, namely n
  have hcount : ∀ m ∈ ch,
      ((∀ p ∈ parentsOf g m, (layerOf? s' p).isSome) ↔
        ((parentsOf g m).filter
          (fun p => (layerOf? s p).isSome)).length + 1 =
          (parentsOf g m).length) := by
    intro m hm
    have hn_par : n ∈ parentsOf g m := mem_parentsOf.mpr ⟨hn_node, hm⟩
    constructor
    · intro hall
      have hflip := filter_length_flip
        (fun p => (layerOf? s p).isSome)
        (fun p => (layerOf? s' p).isSome) n (parentsOf g m)
        (hpar_nodup m) hn_par
        (by show (layerOf? s n).isSome = false; rw [hn_unassigned]; rfl)
        (by show (layerOf? s' n).isSome = true; rw [hlayn]; rfl)
        (fun x _ hx => by
          show (layerOf? s' x).isSome = (layerOf? s x).isSome
          rw [hlayne x hx])
      have hfull : (parentsOf g m).filter
          (fun p => (layerOf? s' p).isSome) = parentsOf g m := by
        apply List.filter_eq_self.mpr
        intro p hp
        exact hall p hp
      rw [hfull] at hflip
      omega
    · intro hlen p hp
      by_cases hpn : p = n
      · rw [hpn, hlayn]; rfl
      · rw [hlayne p hpn]
        by_contra hns
        have hnot : (layerOf? s p).isSome = false :=
          Bool.not_eq_true _ ▸ (by simpa using hns)
        have hcompl := length_filter_compl (parentsOf g m)
          (fun p => (layerOf? s p).isSome)
        have hone : ((parentsOf g m).filter
            (fun x => !(layerOf? s x).isSome)).length = 1 := by omega
        obtain ⟨a, ha⟩ := List.length_eq_one.mp hone
        have hpa : p ∈ (parentsOf g m).filter
            (fun x => !(layerOf? s x).isSome) := by
          rw [List.mem_filter]
          exact ⟨hp, by rw [hnot]; rfl⟩
        have hna : n ∈ (parentsOf g m).filter
            (fun x => !(layerOf? s x).isSome) := by
          rw [List.mem_filter]
          exact ⟨hn_par, by rw [hn_unassigned]; rfl⟩
        rw [ha] at hpa hna
        simp only [List.mem_singleton] at hpa hna
        exact hpn (hpa.trans hna.symm)
  -- now the thirteen invariant fields
  refine ⟨?_, ?_, ?_, ?_, ?_, ?_, ?_, ?_, ?_, ?_, ?_, ?_, ?_⟩
  · -- keys_sub
    intro pr hpr
    rw [hA'] at hpr
    rcases List.mem_cons.mp hpr with h | h
    · rw [h]; exact hn_node
    · exact inv.keys_sub pr h
  · -- keys_nodup
    rw [hA']
    simp only [List.map_cons, List.nodup_cons]
    exact ⟨(lookup_none_iff _ _).mp hn_unassigned, inv.keys_nodup⟩
  · -- queue_sub
    intro m hmq
    rw [hqueue] at hmq
    rcases List.mem_append.mp hmq with h | h
    · exact inv.queue_sub m (hrest_sub m h)
    · exact hch_sub m (hnew_sub m h)
  · -- queue_nodup
    rw [hqueue]
    refine hrest_nodup.append (hch_nodup.filter _) ?_
    intro a ha hanew
    exact hch_not_queue a (hnew_sub a hanew) (hrest_sub a ha)
  · -- queue_unassigned
    intro m hmq
    rw [hqueue] at hmq
    rcases List.mem_append.mp hmq with h | h
    · have hmn : m ≠ n := fun he => hnotin (he ▸ h)
      rw [hlayne m hmn]
      exact inv.queue_unassigned m (hrest_sub m h)
    · have hmch := hnew_sub m h
      have hmn : m ≠ n := fun he => hn_not_child (he ▸ hmch)
      rw [hlayne m hmn]
      exact hch_unassigned m hmch
  · -- queue_ready
    intro m hmq p hp
    rw [hqueue] at hmq
    rcases List.mem_append.mp hmq with h | h
    · by_cases hpn : p = n
      · rw [hpn, hlayn]; rfl
      · rw [hlayne p hpn]
        exact inv.queue_ready m (hrest_sub m h) p hp
    · have hmch := hnew_sub m h
      have hlen := ((hnew_char m).mp h).2
      rw [inv.before_len m (hch_sub m hmch)] at hlen
      exact ((hcount m hmch).mpr hlen) p hp
  · -- layer_le
    intro pr hpr
    rw [hA'] at hpr
    rw [hL']
    rcases List.mem_cons.mp hpr with h | h
    · rw [h]; exact hLn_le
    · exact le_trans (inv.layer_le pr h) hlay_mono
  · -- width_eq
    show s'.width = countL s'.layerAssign s'.layer
    rw [hW', hA', hL']
    exact hw'
  · -- above_empty
    intro L hL
    show countL s'.layerAssign L = 0
    rw [hA']
    exact habove L (hL' ▸ hL)
  · -- width_bound
    intro L
    show countL s'.layerAssign L ≤ maxW
    rw [hA']
    exact hbound L
  · -- edge_lt
    intro pr hpr p hp
    rw [hA'] at hpr
    rcases List.mem_cons.mp hpr with h | h
    · obtain ⟨lp, hlp, hlt⟩ := hedge_n p (by rw [h] at hp; exact hp)
      have hpn : p ≠ n := by
        intro he
        rw [he, hn_unassigned] at hlp
        exact Option.noConfusion hlp
      rw [h]
      exact ⟨lp, by rw [hlayne p hpn]; exact hlp, hlt⟩
    · obtain ⟨lp, hlp, hlt⟩ := inv.edge_lt pr h p hp
      have hpn : p ≠ n := by
        intro he
        rw [he, hn_unassigned] at hlp
        exact Option.noConfusion hlp
      exact ⟨lp, by rw [hlayne p hpn]; exact hlp, hlt⟩
  · -- ready_in_queue
    intro m hm hnone hready
    have hmn : m ≠ n := by
      intro he
      rw [he, hlayn] at hnone
      exact Option.noConfusion hnone
    by_cases hmch : m ∈ ch
    · have hlen := (hcount m hmch).mp hready
      rw [← inv.before_len m hm] at hlen
      have : m ∈ newList := (hnew_char m).mpr ⟨hmch, hlen⟩
      rw [hqueue]
      exact List.mem_append.mpr (Or.inr this)
    · have hready_s : ∀ p ∈ parentsOf g m, (layerOf? s p).isSome := by
        intro p hp
        have hpn : p ≠ n := by
          intro he
          exact hmch (mem_parentsOf.mp (he ▸ hp)).2
        rw [← hlayne p hpn]
        exact hready p hp
      have hnone_s : layerOf? s m = none := by
        rw [← hlayne m hmn]
        exact hnone
      have := inv.ready_in_queue m hm hnone_s hready_s
      rw [hqueue]
      exact List.mem_append.mpr (Or.inl (hmem_rest m this hmn))
  · -- before_len
    intro m hm
    by_cases hmch : m ∈ ch
    · have hn_par : n ∈ parentsOf g m := mem_parentsOf.mpr ⟨hn_node, hmch⟩
      have hflip := filter_length_flip
        (fun p => (layerOf? s p).isSome)
        (fun p => (layerOf? s' p).isSome) n (parentsOf g m)
        (hpar_nodup m) hn_par
        (by show (layerOf? s n).isSome = false; rw [hn_unassigned]; rfl)
        (by show (layerOf? s' n).isSome = true; rw [hlayn]; rfl)
        (fun x _ hx => by
          show (layerOf? s' x).isSome = (layerOf? s x).isSome
          rw [hlayne x hx])
      rw [hbef_mem m hmch, inv.before_len m hm, hflip]
    · have hnopar : n ∉ parentsOf g m := fun hp =>
        hmch (mem_parentsOf.mp hp).2
      rw [hbef_not m hmch, inv.before_len m hm]
      congr 1
      apply List.filter_congr
      intro p hp
      have hpn : p ≠ n := fun he => hnopar (he ▸ hp)
      rw [hlayne p hpn]

theorem cgStepGo_inv (g : Graph) (maxW : Nat) (rank : Nat → Nat)
    (hwf : WellFormedG g) (hacyc : RankedAcyclic g rank) (hmaxW : 1 ≤ maxW)
    (s : CGState) (n : Nat) (rest : List Nat) (inv : CGInv g maxW s)
    (hmem : n ∈ s.queue) (hnotin : n ∉ rest)
    (hrest_sub : ∀ m ∈ rest, m ∈ s.queue) (hrest_nodup : rest.Nodup)
    (hmem_rest : ∀ m ∈ s.queue, m ≠ n → m ∈ rest) :
    CGInv g maxW (cgStepGo g maxW s n rest) := by
  have hwidth : s.width = countL s.layerAssign s.layer := inv.width_eq
  unfold cgStepGo
  by_cases hcond : s.width < maxW ∧ parentsBelow g s n
  · rw [if_pos hcond]
    have hedge : ∀ p ∈ parentsOf g n,
        ∃ lp, layerOf? s p = some lp ∧ lp < s.layer := by
      intro p hp
      have hall := hcond.2
      unfold parentsBelow at hall
      rw [List.all_eq_true] at hall
      have hcp := hall p hp
      cases hl : layerOf? s p with
      | none => rw [hl] at hcp; simp at hcp
      | some lp =>
        rw [hl] at hcp
        simp only [decide_eq_true_eq] at hcp
        exact ⟨lp, rfl, hcp⟩
    have hw : s.width + 1 = countL ((n, s.layer) :: s.layerAssign) s.layer := by
      rw [countL_cons, if_pos rfl, hwidth]
    have hb : ∀ L, countL ((n, s.layer) :: s.layerAssign) L ≤ maxW := by
      intro L
      rw [countL_cons]
      by_cases hL : s.layer = L
      · subst hL
        have h3 : s.width < maxW := hcond.1
        have h4 : (if s.layer = s.layer then 1 else 0) = 1 := if_pos rfl
        rw [h4, ← hwidth]
        omega
      · simp only [if_neg hL, Nat.add_zero]
        exact inv.width_bound L
    have ha : ∀ L, s.layer < L →
        countL ((n, s.layer) :: s.layerAssign) L = 0 := by
      intro L hL
      rw [countL_cons, if_neg (Nat.ne_of_lt hL), Nat.add_zero]
      exact inv.above_empty L hL
    exact cgStepGo_inv_core g maxW rank hwf hacyc s n rest inv hmem hnotin
      hrest_sub hrest_nodup hmem_rest s.layer s.layer (s.width + 1)
      le_rfl le_rfl hedge hw hb ha
  · rw [if_neg hcond]
    have hedge : ∀ p ∈ parentsOf g n,
        ∃ lp, layerOf? s p = some lp ∧ lp < s.layer + 1 := by
      intro p hp
      have hsome := inv.queue_ready n hmem p hp
      obtain ⟨lp, hl⟩ := Option.isSome_iff_exists.mp hsome
      have hle : lp ≤ s.layer := inv.layer_le (p, lp) (lookup_mem hl)
      exact ⟨lp, hl, Nat.lt_succ_of_le hle⟩
    have hzero : countL s.layerAssign (s.layer + 1) = 0 :=
      inv.above_empty (s.layer + 1) (Nat.lt_succ_self _)
    have hw : 1 = countL ((n, s.layer + 1) :: s.layerAssign) (s.layer + 1) := by
      rw [countL_cons, if_pos rfl, hzero]
    have hb : ∀ L, countL ((n, s.layer + 1) :: s.layerAssign) L ≤ maxW := by
      intro L
      rw [countL_cons]
      by_cases hL : s.layer + 1 = L
      · subst hL
        rw [hzero]
        simpa using hmaxW
      · simp only [if_neg hL, Nat.add_zero]
        exact inv.width_bound L
    have ha : ∀ L, s.layer + 1 < L →
        countL ((n, s.layer + 1) :: s.layerAssign) L = 0 := by
      intro L hL
      rw [countL_cons, if_neg (Nat.ne_of_lt hL), Nat.add_zero]
      exact inv.above_empty L (by omega)
    exact cgStepGo_inv_core g maxW rank hwf hacyc s n rest inv hmem hnotin
      hrest_sub hrest_nodup hmem_rest (s.layer + 1) (s.layer + 1) 1
      (Nat.le_succ _) le_rfl hedge hw hb ha

theorem cgStep_inv (g : Graph) (maxW : Nat) (rank : Nat → Nat)
    (hwf : WellFormedG g) (hacyc : RankedAcyclic g rank) (hmaxW : 1 ≤ maxW)
    (s : CGState) (pick : Nat) (inv : CGInv g maxW s) :
    CGInv g maxW (cgStep g maxW s pick) := by
  cases hq : s.queue with
  | nil =>
    simp only [cgStep, hq]
    exact inv
  | cons q qs =>
    simp only [cgStep, hq]
    have hk : pick % (q :: qs).length < (q :: qs).length :=
      Nat.mod_lt _ (by simp)
    have hget : (q :: qs).getD (pick % (q :: qs).length) 0 =
        (q :: qs)[pick % (q :: qs).length] := List.getD_eq_getElem _ _ hk
    have hnd : (q :: qs).Nodup := hq ▸ inv.queue_nodup
    obtain ⟨hnot, hmr⟩ := eraseIdx_facts (q :: qs) (pick % (q :: qs).length)
      hk hnd
    rw [hget]
    apply cgStepGo_inv g maxW rank hwf hacyc hmaxW s _ _ inv
    · rw [hq]
      exact List.getElem_mem hk
    · exact hnot
    · intro m hm
      rw [hq]
      exact (List.eraseIdx_sublist (q :: qs) _).mem hm
    · exact hnd.sublist (List.eraseIdx_sublist _ _)
    · intro m hm hne
      rw [hq] at hm
      exact hmr m hm hne

theorem cgRun_inv (g : Graph) (maxW : Nat) (rank : Nat → Nat)
    (hwf : WellFormedG g) (hacyc : RankedAcyclic g rank) (hmaxW : 1 ≤ maxW) :
    ∀ (ps : List Nat) (s : CGState), CGInv g maxW s →
      CGInv g maxW (cgRun g maxW s ps) := by
  intro ps
  induction ps with
  | nil => intro s inv; exact inv
  | cons p ps ih =>
    intro s inv
    cases hq : s.queue with
    | nil => simp only [cgRun, hq]; exact inv
    | cons q qs =>
      simp only [cgRun, hq]
      exact ih _ (cgStep_inv g maxW rank hwf hacyc hmaxW s p inv)

theorem cgStepGo_assign (g : Graph) (maxW : Nat) (s : CGState) (n : Nat)
    (rest : List Nat) :
    (cgStepGo g maxW s n rest).layerAssign.length =
      s.layerAssign.length + 1 := by
  unfold cgStepGo
  by_cases hcond : s.width < maxW ∧ parentsBelow g s n
  · rw [if_pos hcond]
    show (enqueueChildren g s.idx (childrenOf g n) _).layerAssign.length = _
    rw [(enqueueChildren_frame g s.idx (childrenOf g n) _).1]
    rfl
  · rw [if_neg hcond]
    show (enqueueChildren g s.idx (childrenOf g n) _).layerAssign.length = _
    rw [(enqueueChildren_frame g s.idx (childrenOf g n) _).1]
    rfl

theorem cgStep_assign_succ (g : Graph) (maxW : Nat) (s : CGState)
    (pick : Nat) (q : Nat) (qs : List Nat) (hq : s.queue = q :: qs) :
    (cgStep g maxW s pick).layerAssign.length = s.layerAssign.length + 1 := by
  simp only [cgStep, hq]
  exact cgStepGo_assign g maxW s _ _

theorem cgRun_cases (g : Graph) (maxW : Nat) :
    ∀ (ps : List Nat) (s : CGState),
      (cgRun g maxW s ps).queue = [] ∨
      (cgRun g maxW s ps).layerAssign.length =
        s.layerAssign.length + ps.length := by
  intro ps
  induction ps with
  | nil => intro s; right; rfl
  | cons p ps ih =>
    intro s
    cases hq : s.queue with
    | nil =>
      left
      simp only [cgRun, hq]
    | cons q qs =>
      simp only [cgRun, hq]
      rcases ih (cgStep g maxW s p) with h | h
      · left; exact h
      · right
        rw [h, cgStep_assign_succ g maxW s p q qs hq]
        simp only [List.length_cons]
        omega

theorem all_assigned_of_queue_empty (g : Graph) (maxW : Nat)
    (rank : Nat → Nat) (hacyc : RankedAcyclic g rank) (f : CGState)
    (inv : CGInv g maxW f) (hqe : f.queue = []) :
    ∀ m ∈ nodesOf g, (layerOf? f m).isSome := by
  suffices H : ∀ r, ∀ m ∈ nodesOf g, rank m < r → (layerOf? f m).isSome by
    exact fun m hm => H (rank m + 1) m hm (Nat.lt_succ_self _)
  intro r
  induction r with
  | zero => intro m _ h; omega
  | succ r ih =>
    intro m hm hr
    by_contra hns
    have hnone : layerOf? f m = none := by
      cases hl : layerOf? f m with
      | none => rfl
      | some L => rw [hl] at hns; simp at hns
    have hready : ∀ p ∈ parentsOf g m, (layerOf? f p).isSome := by
      intro p hp
      obtain ⟨hpn, hpc⟩ := mem_parentsOf.mp hp
      have := hacyc p hpn m hpc
      exact ih p hpn (by omega)
    have := inv.ready_in_queue m hm hnone hready
    rw [hqe] at this
    simp at this

theorem all_assigned_of_count (g : Graph) (maxW : Nat) (f : CGState)
    (hwf : WellFormedG g) (inv : CGInv g maxW f)
    (hcount : f.layerAssign.length = (nodesOf g).length) :
    ∀ m ∈ nodesOf g, (layerOf? f m).isSome := by
  have hsub : ∀ k ∈ f.layerAssign.map Prod.fst, k ∈ nodesOf g := by
    intro k hk
    obtain ⟨pr, hpr, rfl⟩ := List.mem_map.mp hk
    exact inv.keys_sub pr hpr
  have h1 : (f.layerAssign.map Prod.fst).toFinset ⊆ (nodesOf g).toFinset :=
    fun x hx => List.mem_toFinset.mpr (hsub x (List.mem_toFinset.mp hx))
  have hcard1 : (f.layerAssign.map Prod.fst).toFinset.card =
      (nodesOf g).length := by
    rw [List.toFinset_card_of_nodup inv.keys_nodup, List.length_map]
    exact hcount
  have hcard2 : (nodesOf g).toFinset.card = (nodesOf g).length :=
    List.toFinset_card_of_nodup hwf.1
  have heq : (f.layerAssign.map Prod.fst).toFinset = (nodesOf g).toFinset :=
    Finset.eq_of_subset_of_card_le h1 (by omega)
  intro m hm
  have : m ∈ f.layerAssign.map Prod.fst :=
    List.mem_toFinset.mp (heq ▸ List.mem_toFinset.mpr hm)
  exact lookup_isSome_of_key this

/-- Claim C2: on every well-formed acyclic dag, run with enough picks to
drain the queue, the layering operator assigns every node a (nonnegative,
`Nat`-valued) layer, every edge goes from a strictly smaller to a strictly
larger layer, and no layer holds more than the effective maximum width
(the configured positive width, or `Math.floor(Math.sqrt(n + 0.5))` when
the configured width is 0).  The pick sequence quantifies over every
dequeue order the external priority queue could produce. -/
theorem coffmanGraham_layers (g : Graph) (w : Nat) (picks : List Nat)
    (rank : Nat → Nat) (hwf : WellFormedG g)
    (hacyc : RankedAcyclic g rank)
    (hlen : (nodesOf g).length ≤ picks.length) :
    (∀ n ∈ nodesOf g,
      ∃ L, layerOf? (coffmanGrahamCall g w picks) n = some L) ∧
    (∀ n ∈ nodesOf g, ∀ c ∈ childrenOf g n, ∀ Ln Lc,
      layerOf? (coffmanGrahamCall g w picks) n = some Ln →
      layerOf? (coffmanGrahamCall g w picks) c = some Lc → Ln < Lc) ∧
    (∀ L, countLayer (coffmanGrahamCall g w picks) L ≤
      effectiveMaxWidth w (nodesOf g).length) := by
  by_cases hempty : nodesOf g = []
  · have hroots : rootsOf g = [] := by simp [rootsOf, hempty]
    have hrun : coffmanGrahamCall g w picks = cgInit g := by
      unfold coffmanGrahamCall
      cases picks with
      | nil => rfl
      | cons p ps =>
        have hq : (cgInit g).queue = [] := hroots
        simp only [cgRun, hq]
    refine ⟨?_, ?_, ?_⟩
    · intro m hm; rw [hempty] at hm; simp at hm
    · intro m hm; rw [hempty] at hm; simp at hm
    · intro L
      rw [hrun]
      show countL (cgInit g).layerAssign L ≤ _
      simp [cgInit, countL]
  · have hN : 1 ≤ (nodesOf g).length := by
      cases hn : nodesOf g with
      | nil => exact absurd hn hempty
      | cons a t => simp [hn]
    have hmaxW : 1 ≤ effectiveMaxWidth w (nodesOf g).length := by
      unfold effectiveMaxWidth
      by_cases hw : w = 0
      · rw [if_pos hw]
        exact Nat.sqrt_pos.mpr hN
      · rw [if_neg hw]
        omega
    have hinv : CGInv g (effectiveMaxWidth w (nodesOf g).length)
        (coffmanGrahamCall g w picks) :=
      cgRun_inv g _ rank hwf hacyc hmaxW picks (cgInit g)
        (cgInit_inv g _ hwf)
    have hcomplete : ∀ m ∈ nodesOf g,
        (layerOf? (coffmanGrahamCall g w picks) m).isSome := by
      rcases cgRun_cases g (effectiveMaxWidth w (nodesOf g).length) picks
          (cgInit g) with h | h
      · exact all_assigned_of_queue_empty g _ rank hacyc _ hinv h
      · have hle : (coffmanGrahamCall g w picks).layerAssign.length ≤
            (nodesOf g).length := by
          have hsub : ∀ k ∈ (coffmanGrahamCall g w picks).layerAssign.map
              Prod.fst, k ∈ nodesOf g := by
            intro k hk
            obtain ⟨pr, hpr, rfl⟩ := List.mem_map.mp hk
            exact hinv.keys_sub pr hpr
          have h1 : ((coffmanGrahamCall g w picks).layerAssign.map
              Prod.fst).toFinset ⊆ (nodesOf g).toFinset :=
            fun x hx => List.mem_toFinset.mpr
              (hsub x (List.mem_toFinset.mp hx))
          have hc1 := List.toFinset_card_of_nodup hinv.keys_nodup
          have hc2 := List.toFinset_card_of_nodup hwf.1
          have := Finset.card_le_card h1
          rw [hc1, hc2, List.length_map] at this
          exact this
        have hinit : (cgInit g).layerAssign.length = 0 := rfl
        have heq : (coffmanGrahamCall g w picks).layerAssign.length =
            (nodesOf g).length := by
          have hcc : (coffmanGrahamCall g w picks).layerAssign.length =
              picks.length := by
            have := h
            rw [hinit] at this
            simpa using this
          omega
        exact all_assigned_of_count g _ _ hwf hinv heq
    refine ⟨?_, ?_, ?_⟩
    · intro m hm
      exact Option.isSome_iff_exists.mp (hcomplete m hm)
    · intro nn hn c hc Ln Lc hLn hLc
      obtain ⟨lp, hlp, hlt⟩ := hinv.edge_lt (c, Lc) (lookup_mem hLc) nn
        (mem_parentsOf.mpr ⟨hn, hc⟩)
      rw [hLn] at hlp
      injection hlp with h
      omega
    · exact hinv.width_bound

/-- Claim C2 witness: the square dag 0→{1,2}→3 with automatic width
(√4 = 2) and one concrete pick sequence. -/
theorem coffmanGraham_layers_witness :
    WellFormedG [(0, [1, 2]), (1, [3]), (2, [3]), (3, [])] ∧
    RankedAcyclic [(0, [1, 2]), (1, [3]), (2, [3]), (3, [])] (fun n => n) ∧
    (nodesOf [(0, [1, 2]), (1, [3]), (2, [3]), (3, [])]).length ≤
      ([0, 0, 0, 0] : List Nat).length ∧
    ((∀ n ∈ nodesOf [(0, [1, 2]), (1, [3]), (2, [3]), (3, [])],
      ∃ L, layerOf? (coffmanGrahamCall
        [(0, [1, 2]), (1, [3]), (2, [3]), (3, [])] 0 [0, 0, 0, 0]) n =
          some L) ∧
    (∀ n ∈ nodesOf [(0, [1, 2]), (1, [3]), (2, [3]), (3, [])],
      ∀ c ∈ childrenOf [(0, [1, 2]), (1, [3]), (2, [3]), (3, [])] n,
      ∀ Ln Lc,
      layerOf? (coffmanGrahamCall
        [(0, [1, 2]), (1, [3]), (2, [3]), (3, [])] 0 [0, 0, 0, 0]) n =
          some Ln →
      layerOf? (coffmanGrahamCall
        [(0, [1, 2]), (1, [3]), (2, [3]), (3, [])] 0 [0, 0, 0, 0]) c =
          some Lc → Ln < Lc) ∧
    (∀ L, countLayer (coffmanGrahamCall
        [(0, [1, 2]), (1, [3]), (2, [3]), (3, [])] 0 [0, 0, 0, 0]) L ≤
      effectiveMaxWidth 0
        (nodesOf [(0, [1, 2]), (1, [3]), (2, [3]), (3, [])]).length)) :=
  ⟨by decide, by decide, by decide,
    coffmanGraham_layers [(0, [1, 2]), (1, [3]), (2, [3]), (3, [])] 0
      [0, 0, 0, 0] (fun n => n) (by decide) (by decide) (by decide)⟩

theorem mem_insertsOf (x : Nat) :
    ∀ (l m : List Nat), m ∈ insertsOf x l ↔
      ∃ l1 l2, l = l1 ++ l2 ∧ m = l1 ++ x :: l2 := by
  intro l
  induction l with
  | nil =>
    intro m
    simp only [insertsOf, List.mem_singleton]
    constructor
    · intro h; exact ⟨[], [], rfl, by simp [h]⟩
    · rintro ⟨l1, l2, h1, h2⟩
      obtain ⟨rfl, rfl⟩ : l1 = [] ∧ l2 = [] := by
        constructor <;> [exact List.append_eq_nil.mp h1.symm |>.1;
          exact List.append_eq_nil.mp h1.symm |>.2]
      simpa using h2
  | cons y ys ih =>
    intro m
    simp only [insertsOf, List.mem_cons, List.mem_map]
    constructor
    · intro h
      rcases h with h | ⟨m', hm', rfl⟩
      · exact ⟨[], y :: ys, rfl, by simp [h]⟩
      · obtain ⟨l1, l2, rfl, rfl⟩ := (ih m').mp hm'
        exact ⟨y :: l1, l2, rfl, rfl⟩
    · rintro ⟨l1, l2, h1, rfl⟩
      cases l1 with
      | nil =>
        left
        simp at h1
        simp [h1]
      | cons z zs =>
        right
        have hz : z = y ∧ ys = zs ++ l2 := by
          have := h1
          rw [List.cons_append] at this
          injection this with ha hb
          exact ⟨ha.symm, hb⟩
        refine ⟨zs ++ x :: l2, (ih (zs ++ x :: l2)).mpr ⟨zs, l2, hz.2, rfl⟩, ?_⟩
        rw [hz.1]
        rfl

theorem mem_permsOf : ∀ (l m : List Nat), m ∈ permsOf l ↔ m.Perm l := by
  intro l
  induction l with
  | nil =>
    intro m
    simp only [permsOf, List.mem_singleton]
    constructor
    · intro h; rw [h]
    · intro h; exact h.eq_nil
  | cons x xs ih =>
    intro m
    simp only [permsOf, List.mem_flatten, List.mem_map]
    constructor
    · rintro ⟨sub, ⟨p, hp, rfl⟩, hm⟩
      obtain ⟨l1, l2, rfl, rfl⟩ := (mem_insertsOf x p _).mp hm
      exact List.perm_middle.trans (((ih _).mp hp).cons x)
    · intro h
      have hx : x ∈ m := h.mem_iff.mpr (List.mem_cons_self _ _)
      obtain ⟨l1, l2, rfl⟩ := List.append_of_mem hx
      have hperm : (l1 ++ l2).Perm xs := by
        have h2 : (x :: (l1 ++ l2)).Perm (x :: xs) :=
          (List.perm_middle.symm.trans h)
      -- strip the head
        exact h2.cons_inv
      exact ⟨insertsOf x (l1 ++ l2), ⟨l1 ++ l2, (ih _).mpr hperm, rfl⟩,
        (mem_insertsOf x (l1 ++ l2) _).mpr ⟨l1, l2, rfl, rfl⟩⟩

theorem allVecs_complete : ∀ l : List Bool, l ∈ allVecs l.length := by
  intro l
  induction l with
  | nil => simp [allVecs]
  | cons b t ih =>
    cases b
    · exact List.mem_append.mpr (Or.inl (List.mem_map.mpr ⟨t, ih, rfl⟩))
    · exact List.mem_append.mpr (Or.inr (List.mem_map.mpr ⟨t, ih, rfl⟩))

theorem decodeAsg_map (w : (Nat × Nat) → Bool) :
    ∀ (pairs : List (Nat × Nat)), ∀ k ∈ pairs,
      decodeAsg pairs (pairs.map w) k = w k := by
  intro pairs
  induction pairs with
  | nil => intro k hk; simp at hk
  | cons p ps ih =>
    intro k hk
    simp only [List.map_cons, decodeAsg]
    by_cases hpk : p = k
    · rw [if_pos hpk, hpk]
    · rw [if_neg hpk]
      exact ih k (by
        rcases List.mem_cons.mp hk with h | h
        · exact absurd h.symm hpk
        · exact h)

theorem pairVal_congr {v w : (Nat × Nat) → Bool} {k : Nat × Nat}
    (h : v k = w k) : pairVal v k = pairVal w k := by
  unfold pairVal
  rw [h]

theorem objective_congr (m : OptModel) (S : List (Nat × Nat))
    (v w : (Nat × Nat) → Bool)
    (hkeys : ∀ e ∈ m.slacks, e.pairp ∈ S ∧ e.pairc ∈ S)
    (hagree : ∀ k ∈ S, v k = w k) :
    objective m v = objective m w := by
  unfold objective
  congr 1
  apply List.map_congr_left
  intro e he
  unfold slackCost
  rw [pairVal_congr (hagree _ (hkeys e he).1),
    pairVal_congr (hagree _ (hkeys e he).2)]

theorem feasible_congr (m : OptModel) (S : List (Nat × Nat))
    (v w : (Nat × Nat) → Bool)
    (hkeys : ∀ t ∈ m.triples, t.1 ∈ S ∧ t.2.1 ∈ S ∧ t.2.2 ∈ S)
    (hagree : ∀ k ∈ S, v k = w k)
    (h : Feasible m v) : Feasible m w := by
  intro t ht
  have := h t ht
  rw [pairVal_congr (hagree _ (hkeys t ht).1),
    pairVal_congr (hagree _ (hkeys t ht).2.1),
    pairVal_congr (hagree _ (hkeys t ht).2.2)] at this
  exact this

theorem codeLt_irrefl : ∀ l : List Char, codeLt l l = false
  | [] => rfl
  | c :: cs => by simp [codeLt, codeLt_irrefl cs]

theorem strCmp_self (s : String) : strCmp s s = 0 := by
  simp [strCmp, codeLt_irrefl]

theorem compI_self (ids : List (Nat × (Nat × Nat))) (n : Nat) :
    compI ids n n = 0 := strCmp_self _

theorem insertCmp_congr (lt lt' : α → α → Bool) (x : α) :
    ∀ l : List α, (∀ y ∈ l, lt x y = lt' x y) →
      insertCmp lt x l = insertCmp lt' x l := by
  intro l
  induction l with
  | nil => intro _; rfl
  | cons y ys ih =>
    intro h
    have hy : lt x y = lt' x y := h y (List.mem_cons_self y ys)
    have ih' := ih (fun z hz => h z (List.mem_cons_of_mem _ hz))
    simp only [insertCmp, hy, ih']

theorem sortCmp_congr (lt lt' : α → α → Bool) :
    ∀ l : List α, (∀ a ∈ l, ∀ b ∈ l, lt a b = lt' a b) →
      sortCmp lt l = sortCmp lt' l := by
  intro l
  induction l with
  | nil => intro _; rfl
  | cons x xs ih =>
    intro h
    have ih' := ih (fun a ha b hb =>
      h a (List.mem_cons_of_mem _ ha) b (List.mem_cons_of_mem _ hb))
    simp only [sortCmp, ih']
    apply insertCmp_congr
    intro y hy
    have hyxs : y ∈ xs := ((sortCmp_perm lt' xs).mem_iff).mp hy
    exact h x (List.mem_cons_self x xs) y (List.mem_cons_of_mem _ hyxs)

theorem finalLayer_congr (ids : List (Nat × (Nat × Nat)))
    (σ τ : Nat × Nat → Option Int) (l : List Nat)
    (h : ∀ n1 ∈ l, ∀ n2 ∈ l, n1 ≠ n2 →
      jsOr (σ (nkey ids n1 n2)) = jsOr (τ (nkey ids n1 n2))) :
    finalLayer ids σ l = finalLayer ids τ l := by
  apply sortCmp_congr
  intro a ha b hb
  by_cases hab : a = b
  · subst hab
    simp [finalLt, compI_self]
  · simp only [finalLt, h a ha b hb hab]

theorem map_eq_agree (v w : (Nat × Nat) → Bool) :
    ∀ l : List (Nat × Nat), l.map v = l.map w → ∀ k ∈ l, v k = w k := by
  intro l
  induction l with
  | nil => intro _ k hk; exact absurd hk (List.not_mem_nil k)
  | cons p ps ih =>
    intro h k hk
    simp only [List.map_cons, List.cons.injEq] at h
    rcases List.mem_cons.mp hk with hk | hk
    · subst hk; exact h.1
    · exact ih h.2 k hk

theorem cexModel_eq : buildModel cexGraph cexLayers = cexModel := by rfl

theorem cex_keys_slacks :
    ∀ e ∈ cexModel.slacks, e.pairp ∈ cexPairs ∧ e.pairc ∈ cexPairs := by
  decide

theorem cex_keys_triples :
    ∀ t ∈ cexModel.triples,
      t.1 ∈ cexPairs ∧ t.2.1 ∈ cexPairs ∧ t.2.2 ∈ cexPairs := by
  decide

theorem cex_scan :
    ∀ bs ∈ allVecs cexPairs.length,
      Feasible cexModel (decodeAsg cexPairs bs) →
      objective cexModel cexV ≤
        objective cexModel (decodeAsg cexPairs bs) := by
  decide

theorem cex_optimal :
    ∀ w, Feasible cexModel w →
      objective cexModel cexV ≤ objective cexModel w := by
  intro w hw
  have hlen : (cexPairs.map w).length = cexPairs.length := List.length_map _ _
  have hbs : cexPairs.map w ∈ allVecs cexPairs.length := by
    have := allVecs_complete (cexPairs.map w)
    rwa [hlen] at this
  have hagree : ∀ k ∈ cexPairs, decodeAsg cexPairs (cexPairs.map w) k = w k :=
    decodeAsg_map w cexPairs
  have hfeas : Feasible cexModel (decodeAsg cexPairs (cexPairs.map w)) :=
    feasible_congr cexModel cexPairs w _ cex_keys_triples
      (fun k hk => (hagree k hk).symm) hw
  have := cex_scan (cexPairs.map w) hbs hfeas
  rwa [objective_congr cexModel cexPairs _ w cex_keys_slacks hagree] at this

theorem cex_pin :
    ∀ bs ∈ allVecs cexPairs.length,
      Feasible cexModel (decodeAsg cexPairs bs) →
      objective cexModel (decodeAsg cexPairs bs) ≤ objective cexModel cexV →
      bs = cexVecA ∨ bs = cexVecB := by
  decide

theorem cex_forced :
    ∀ (v : (Nat × Nat) → Bool) (σ : (Nat × Nat) → Option Int)
      (out : List (List Nat)),
      Feasible cexModel v →
      (∀ w, Feasible cexModel w →
        objective cexModel v ≤ objective cexModel w) →
      RepresentsAsg cexModel σ v →
      optCallWith false cexGraph cexLayers σ = Except.ok out →
      totalCross cexGraph out = 7 := by
  intro v σ out hfeas hopt hrep hout
  have hobj : objective cexModel v ≤ objective cexModel cexV :=
    hopt cexV (by decide)
  have hlen : (cexPairs.map v).length = cexPairs.length := List.length_map _ _
  have hbs : cexPairs.map v ∈ allVecs cexPairs.length := by
    have := allVecs_complete (cexPairs.map v)
    rwa [hlen] at this
  have hagree : ∀ k ∈ cexPairs, decodeAsg cexPairs (cexPairs.map v) k = v k :=
    decodeAsg_map v cexPairs
  have hfeas' : Feasible cexModel (decodeAsg cexPairs (cexPairs.map v)) :=
    feasible_congr cexModel cexPairs v _ cex_keys_triples
      (fun k hk => (hagree k hk).symm) hfeas
  have hobj' : objective cexModel (decodeAsg cexPairs (cexPairs.map v)) ≤
      objective cexModel cexV := by
    rw [objective_congr cexModel cexPairs _ v cex_keys_slacks hagree]
    exact hobj
  have hpin := cex_pin (cexPairs.map v) hbs hfeas' hobj'
  have hk0 : ∀ n1 ∈ ([0, 1] : List Nat), ∀ n2 ∈ ([0, 1] : List Nat),
      n1 ≠ n2 → nkey (idsOf cexLayers) n1 n2 ∈ cexPairs := by decide
  have hk1 : ∀ n1 ∈ ([4, 2, 3, 5] : List Nat),
      ∀ n2 ∈ ([4, 2, 3, 5] : List Nat),
      n1 ≠ n2 → nkey (idsOf cexLayers) n1 n2 ∈ cexPairs := by decide
  have hk2 : ∀ n1 ∈ ([6, 7] : List Nat), ∀ n2 ∈ ([6, 7] : List Nat),
      n1 ≠ n2 → nkey (idsOf cexLayers) n1 n2 ∈ cexPairs := by decide
  have hoc : ∀ τ : (Nat × Nat) → Option Int,
      optCallWith false cexGraph cexLayers τ = Except.ok
        [finalLayer (idsOf cexLayers) τ [0, 1],
         finalLayer (idsOf cexLayers) τ [4, 2, 3, 5],
         finalLayer (idsOf cexLayers) τ [6, 7]] := fun τ => rfl
  rcases hpin with hA | hB
  · have hvagree : ∀ k ∈ cexPairs, v k = cexV2 k :=
      map_eq_agree v cexV2 cexPairs (by rw [hA]; rfl)
    have hσ2 : ∀ k ∈ cexPairs, jsOr (σ k) = jsOr (cexSigma2 k) := by
      intro k hk
      rw [hrep k hk, hvagree k hk]
      cases h : cexV2 k
      · simp [cexSigma2, h, jsOr]
      · simp [cexSigma2, h, jsOr]
    have hfinA : ∀ l : List Nat,
        (∀ n1 ∈ l, ∀ n2 ∈ l, n1 ≠ n2 →
          nkey (idsOf cexLayers) n1 n2 ∈ cexPairs) →
        finalLayer (idsOf cexLayers) σ l =
          finalLayer (idsOf cexLayers) cexSigma2 l :=
      fun l hl => finalLayer_congr _ _ _ l
        (fun n1 h1 n2 h2 hne => hσ2 _ (hl n1 h1 n2 h2 hne))
    rw [hoc σ, hfinA [0, 1] hk0, hfinA [4, 2, 3, 5] hk1,
      hfinA [6, 7] hk2] at hout
    have hlit : ([finalLayer (idsOf cexLayers) cexSigma2 [0, 1],
        finalLayer (idsOf cexLayers) cexSigma2 [4, 2, 3, 5],
        finalLayer (idsOf cexLayers) cexSigma2 [6, 7]] : List (List Nat)) =
        cexOut2 := by rfl
    rw [hlit] at hout
    injection hout with h3
    rw [← h3]
    rfl
  · have hvagree : ∀ k ∈ cexPairs, v k = cexV k :=
      map_eq_agree v cexV cexPairs (by rw [hB]; rfl)
    have hσ1 : ∀ k ∈ cexPairs, jsOr (σ k) = jsOr (cexSigma k) := by
      intro k hk
      rw [hrep k hk, hvagree k hk]
      cases h : cexV k
      · simp [cexSigma, h, jsOr]
      · simp [cexSigma, h, jsOr]
    have hfinB : ∀ l : List Nat,
        (∀ n1 ∈ l, ∀ n2 ∈ l, n1 ≠ n2 →
          nkey (idsOf cexLayers) n1 n2 ∈ cexPairs) →
        finalLayer (idsOf cexLayers) σ l =
          finalLayer (idsOf cexLayers) cexSigma l :=
      fun l hl => finalLayer_congr _ _ _ l
        (fun n1 h1 n2 h2 hne => hσ1 _ (hl n1 h1 n2 h2 hne))
    rw [hoc σ, hfinB [0, 1] hk0, hfinB [4, 2, 3, 5] hk1,
      hfinB [6, 7] hk2] at hout
    have hlit : ([finalLayer (idsOf cexLayers) cexSigma [0, 1],
        finalLayer (idsOf cexLayers) cexSigma [4, 2, 3, 5],
        finalLayer (idsOf cexLayers) cexSigma [6, 7]] : List (List Nat)) =
        cexOut := by rfl
    rw [hlit] at hout
    injection hout with h3
    rw [← h3]
    rfl

/-- Claim C1 fails on the code: on the failing input — a valid layering
passing the size guard — `cexV` is a feasible, globally optimal 0/1
solution of the integer program `optCall` builds (the exact external
solver's contract), yet the reordering it produces has 7 crossings while
both the original order and the true optimum have 6.  Moreover EVERY
optimal solution of that program, under any solver result map
representing it, makes `optCall` return an order with 7 crossings: the
failure does not depend on which optimum the solver picks.  The cause is
the slack-name collision: two parents sharing two children generate the
same `slack (pairp) (pairc)` name twice, and the second write overwrites
the first, so the objective no longer counts all crossings.  This
contradicts the module's own documentation ("minimizes the number of
edge crossings"), so the final conjunct refutes `ClaimC1` as stated. -/
theorem decrossOpt_missed_minimum :
    ValidLayering cexGraph cexLayers ∧
    guardSize cexLayers ≤ 2500 ∧
    Feasible (buildModel cexGraph cexLayers) cexV ∧
    (∀ w, Feasible (buildModel cexGraph cexLayers) w →
      objective (buildModel cexGraph cexLayers) cexV ≤
        objective (buildModel cexGraph cexLayers) w) ∧
    RepresentsAsg (buildModel cexGraph cexLayers) cexSigma cexV ∧
    optCallWith false cexGraph cexLayers cexSigma = Except.ok cexOut ∧
    totalCross cexGraph cexLayers = 6 ∧
    totalCross cexGraph cexOut = 7 ∧
    minCross cexGraph cexLayers = 6 ∧
    (∀ (v : (Nat × Nat) → Bool) (σ : (Nat × Nat) → Option Int)
        (out : List (List Nat)),
      Feasible (buildModel cexGraph cexLayers) v →
      (∀ w, Feasible (buildModel cexGraph cexLayers) w →
        objective (buildModel cexGraph cexLayers) v ≤
          objective (buildModel cexGraph cexLayers) w) →
      RepresentsAsg (buildModel cexGraph cexLayers) σ v →
      optCallWith false cexGraph cexLayers σ = Except.ok out →
      totalCross cexGraph out = 7) ∧
    ¬ ClaimC1 := by
  have hvalid : ValidLayering cexGraph cexLayers := by decide
  have hguard : guardSize cexLayers ≤ 2500 := by decide
  have hfeas : Feasible (buildModel cexGraph cexLayers) cexV := by
    rw [cexModel_eq]; decide
  have hopt : ∀ w, Feasible (buildModel cexGraph cexLayers) w →
      objective (buildModel cexGraph cexLayers) cexV ≤
        objective (buildModel cexGraph cexLayers) w := by
    rw [cexModel_eq]; exact cex_optimal
  have hrep : RepresentsAsg (buildModel cexGraph cexLayers) cexSigma cexV := by
    rw [cexModel_eq]; decide
  have hout : optCallWith false cexGraph cexLayers cexSigma =
      Except.ok cexOut := by rfl
  have horig : totalCross cexGraph cexLayers = 6 := by rfl
  have hres : totalCross cexGraph cexOut = 7 := by rfl
  have hmin : minCross cexGraph cexLayers = 6 := by decide
  have hforced : ∀ (v : (Nat × Nat) → Bool) (σ : (Nat × Nat) → Option Int)
      (out : List (List Nat)),
      Feasible (buildModel cexGraph cexLayers) v →
      (∀ w, Feasible (buildModel cexGraph cexLayers) w →
        objective (buildModel cexGraph cexLayers) v ≤
          objective (buildModel cexGraph cexLayers) w) →
      RepresentsAsg (buildModel cexGraph cexLayers) σ v →
      optCallWith false cexGraph cexLayers σ = Except.ok out →
      totalCross cexGraph out = 7 := by
    simp only [cexModel_eq]
    exact cex_forced
  refine ⟨hvalid, hguard, hfeas, hopt, hrep, hout, horig, hres, hmin,
    hforced, ?_⟩
  intro hclaim
  have := hclaim cexGraph cexLayers cexSigma cexV cexOut hvalid hguard hfeas
    hopt hrep hout
  rw [hres, hmin] at this
  exact absurd this.2 (by decide)

end D3Dag
